import Mathlib

/-!
go-githubactions: workflow commands, file appends and the run URL.

A shallow embedding of `workflow.go` together with the parts of the Go standard
library it calls (`fmt`, `strings`, `net/url`, `path`, `os`), modelled after the
Go 1.22 implementation of those packages. Later releases of `net/url` are
stricter about hosts in brackets and hosts with several colons; the result of
parsing such a host is a parameter (`url.HostRules`), of which `url.go122` is
the Go 1.22 instance.

Conventions.
* A Go `string` is a sequence of bytes: `GoString := List Nat`, every entry a
  byte (a number below 256).  `bytes "abc"` is the byte sequence of an ASCII
  literal.
* An index `i` into a string that only ever moves forward is represented by the
  unread suffix `s[i:]`.
* Loops whose termination is not structural carry a fuel argument and return
  `none` when it runs out; the lemmas `cleanOut_total` and `doPrintf_total` show
  that the fuel handed over by the callers always suffices.
* The rendering of operands other than plain strings (`fmt.Printer`), the writer
  behind an `io.Writer` and the outcomes of file operations (`os.World`) are
  parameters: the theorems hold for every choice of them.
-/

set_option autoImplicit false

namespace GoGithubActions

/-- A Go string: its bytes. -/
abbrev GoString := List Nat

/-- The bytes of an ASCII literal. -/
def bytes (s : String) : GoString := s.toList.map Char.toNat

/-! ## package strings -/

namespace strings

/-- `strings.HasPrefix`: `len(s) >= len(p) && s[:len(p)] == p`. -/
def HasPrefix (s p : GoString) : Bool :=
  decide (p.length ≤ s.length) && (s.take p.length == p)

/-- `strings.HasSuffix`: `len(s) >= len(p) && s[len(s)-len(p):] == p`. -/
def HasSuffix (s p : GoString) : Bool :=
  decide (p.length ≤ s.length) && (s.drop (s.length - p.length) == p)

/-- `strings.Index`: the index of the first instance of `sub` in `s`
(`none` for Go's `-1`). -/
def Index : GoString → GoString → Option Nat
  | [], sub => if sub = [] then some 0 else none
  | c :: t, sub =>
    if HasPrefix (c :: t) sub then some 0 else (Index t sub).map (· + 1)

/-- `strings.LastIndex`: the index of the last instance of `sub` in `s`. -/
def LastIndex : GoString → GoString → Option Nat
  | [], sub => if sub = [] then some 0 else none
  | c :: t, sub =>
    match LastIndex t sub with
    | some i => some (i + 1)
    | none => if HasPrefix (c :: t) sub then some 0 else none

/-- `strings.Contains`. -/
def Contains (s sub : GoString) : Bool := (Index s sub).isSome

/-- `strings.Cut`: slices `s` around the first instance of `sep`. -/
def Cut (s sep : GoString) : GoString × GoString × Bool :=
  match Index s sep with
  | some i => (s.take i, s.drop (i + sep.length), true)
  | none => (s, [], false)

/-- `strings.Count` for a one-byte separator. -/
def Count (s : GoString) (c : Nat) : Nat := s.count c

/-- `strings.ToLower` on ASCII text (the only text it is applied to here is a
URL scheme, which `getScheme` has checked to be ASCII). -/
def ToLower (s : GoString) : GoString :=
  s.map fun c => if 65 ≤ c ∧ c ≤ 90 then c + 32 else c

end strings

/-! ## package unicode/utf8 -/

namespace utf8

/-- `utf8.RuneError`, U+FFFD. -/
def RuneError : Nat := 65533

/-- Is `c` a continuation byte (`locb <= c <= hicb`)? -/
def cont (c : Nat) : Bool := decide (128 ≤ c ∧ c ≤ 191)

/-- `utf8.DecodeRuneInString`: the first rune of `s` and its width in bytes;
`(RuneError, 1)` for an invalid encoding, `(RuneError, 0)` for the empty string.
The table `first` and `acceptRanges` are written out as byte ranges. -/
def DecodeRuneInString : GoString → Nat × Nat
  | [] => (RuneError, 0)
  | s0 :: t =>
    if s0 < 128 then (s0, 1)
    else if s0 < 194 ∨ 245 ≤ s0 then (RuneError, 1)
    else
      -- size and accepted range of the second byte
      let sz : Nat := if s0 < 224 then 2 else if s0 < 240 then 3 else 4
      let lo : Nat := if s0 = 224 then 160 else if s0 = 240 then 144 else 128
      let hi : Nat := if s0 = 237 then 159 else if s0 = 244 then 143 else 191
      if t.length + 1 < sz then (RuneError, 1)
      else
        match t with
        | [] => (RuneError, 1)
        | s1 :: t1 =>
          if s1 < lo ∨ hi < s1 then (RuneError, 1)
          else if sz ≤ 2 then ((s0 % 32) * 64 + s1 % 64, 2)
          else
            match t1 with
            | [] => (RuneError, 1)
            | s2 :: t2 =>
              if !cont s2 then (RuneError, 1)
              else if sz ≤ 3 then ((s0 % 16) * 4096 + (s1 % 64) * 64 + s2 % 64, 3)
              else
                match t2 with
                | [] => (RuneError, 1)
                | s3 :: _ =>
                  if !cont s3 then (RuneError, 1)
                  else ((s0 % 8) * 262144 + (s1 % 64) * 4096 + (s2 % 64) * 64 + s3 % 64, 4)

/-- `utf8.AppendRune` on an empty buffer: the UTF-8 encoding of `r`. -/
def EncodeRune (r : Nat) : GoString :=
  if r ≤ 127 then [r]
  else if r ≤ 2047 then [192 + r / 64, 128 + r % 64]
  else if 1114111 < r ∨ (55296 ≤ r ∧ r ≤ 57343) then [239, 191, 189]
  else if r ≤ 65535 then [224 + r / 4096, 128 + r / 64 % 64, 128 + r % 64]
  else [240 + r / 262144, 128 + r / 4096 % 64, 128 + r / 64 % 64, 128 + r % 64]

end utf8

/-! ## errors -/

/-- The errors `net/url` reports from `Parse`. -/
inductive UrlErr where
  | invalidControlCharacter            -- "net/url: invalid control character in URL"
  | missingProtocolScheme              -- "missing protocol scheme"
  | firstPathSegmentColon              -- "first path segment in URL cannot contain colon"
  | invalidUserinfo                    -- "net/url: invalid userinfo"
  | missingBracket                     -- "missing ']' in host"
  | invalidPort (colonPort : GoString) -- "invalid port %q after host"
  | EscapeError (s : GoString)         -- url.EscapeError
  | InvalidHostError (s : GoString)    -- url.InvalidHostError
  | emptyURL                           -- "empty url"
  | invalidURIForRequest               -- "invalid URI for request"
  deriving DecidableEq, Repr

/-- Go `error` values that occur in this program. -/
inductive Error where
  /-- The value of `errors.New(msg)`. -/
  | errorsNew (msg : GoString)
  /-- An error reported by the operating system for a file operation. -/
  | os (errno : Nat)
  /-- An error reported by an `io.Writer`. -/
  | io (code : Nat)
  /-- The value `&url.Error{Op, URL, Err}`. -/
  | url (op : GoString) (rawURL : GoString) (err : UrlErr)
  /-- The value of `fmt.Errorf(pre + "%w", inner)`: its message is `pre` followed by
  the message of `inner`, and it unwraps to `inner`. -/
  | wrap (pre : GoString) (inner : Error)
  deriving DecidableEq, Repr

/-! ## package fmt -/

namespace fmt

/-- The flags, width and precision of the directive being processed
(`fmt.fmtFlags` with `wid` and `prec`). -/
structure fmtFlags where
  widPresent : Bool := false
  precPresent : Bool := false
  minus : Bool := false
  plus : Bool := false
  sharp : Bool := false
  space : Bool := false
  zero : Bool := false
  plusV : Bool := false
  sharpV : Bool := false
  wid : Int := 0
  prec : Int := 0
  deriving DecidableEq, Repr

/-- An operand of a formatting call (`any`): `nil`, a `string`, or a value of
some other type, kept abstract. -/
inductive Value (α : Type) where
  | nil
  | str (s : GoString)
  | other (x : α)

/-- What the formatting of operands needs from the rest of `fmt` and `reflect`;
the theorems hold for every choice of these functions. -/
structure Printer (α : Type) where
  /-- Output of `printArg` for every operand and directive other than a string
  printed by `%s` or `%v` without width and precision. -/
  render : fmtFlags → Value α → Nat → GoString
  /-- The text `reflect.TypeOf(arg).String()` for an operand that is not a string. -/
  typeString : α → GoString
  /-- The value of an operand of integer kind that fits an `int`. -/
  intValue : α → Option Int

/-- The printer state `pp`, with the loop variables `argNum` and `afterIndex`
of `doPrintf`. -/
structure pp where
  buf : GoString := []
  fmt : fmtFlags := {}
  reordered : Bool := false
  goodArgNum : Bool := false
  wrappedErrs : List Nat := []
  argNum : Nat := 0
  afterIndex : Bool := false
  deriving DecidableEq, Repr

def percentBangString : GoString := bytes "%!"
def missingString : GoString := bytes "(MISSING)"
def badIndexString : GoString := bytes "(BADINDEX)"
def noVerbString : GoString := bytes "%!(NOVERB)"
def extraString : GoString := bytes "%!(EXTRA "
def badWidthString : GoString := bytes "%!(BADWIDTH)"
def badPrecString : GoString := bytes "%!(BADPREC)"
def nilAngleString : GoString := bytes "<nil>"
def commaSpaceString : GoString := bytes ", "

/-- `(*fmt).clearflags`. -/
def clearflags (_f : fmtFlags) : fmtFlags := {}

/-- `tooLarge`: is the magnitude too large for a width or precision? -/
def tooLarge (x : Int) : Bool := decide (x > 1000000 ∨ x < -1000000)

/-- The loop of `parsenum` over `s[start:end]`; an overflow jumps to `end`. -/
def parsenumLoop : GoString → Int → Bool → Int × Bool × GoString
  | [], num, isnum => (num, isnum, [])
  | c :: rest, num, isnum =>
    if 48 ≤ c ∧ c ≤ 57 then                      -- '0' <= c <= '9'
      if tooLarge num then (0, false, [])
      else parsenumLoop rest (num * 10 + ((c - 48 : Nat) : Int)) true
    else (num, isnum, c :: rest)

/-- `parsenum(s, start, end)` on the segment `s[start:end]`: the number, whether
one is present, and the unread rest of the segment. -/
def parsenum (s : GoString) : Int × Bool × GoString := parsenumLoop s 0 false

/-- `parseArgNumber`: the bracketed number minus one, the bytes to consume, and
whether it parsed. `format` starts with the opening bracket. -/
def parseArgNumber (format : GoString) : Int × Nat × Bool :=
  if format.length < 3 then (0, 1, false)
  else
    match strings.Index (format.drop 1) (bytes "]") with
    | some j =>
      -- the closing bracket is at index i = j + 1
      if (parsenum ((format.drop 1).take j)).2.1 = false
          ∨ (parsenum ((format.drop 1).take j)).2.2 ≠ [] then (0, j + 2, false)
      else ((parsenum ((format.drop 1).take j)).1 - 1, j + 2, true)
    | none => (0, 1, false)

/-- `(*pp).argNumber`: the next argument to evaluate and the unread format. -/
def argNumber (p : pp) (format : GoString) (numArgs : Nat) : pp × GoString × Bool :=
  if format.head? = some 91 then                 -- '['
    if (parseArgNumber format).2.2 = true ∧ 0 ≤ (parseArgNumber format).1
        ∧ (parseArgNumber format).1 < (numArgs : Int) then
      ({ p with reordered := true, argNum := (parseArgNumber format).1.toNat },
        format.drop (parseArgNumber format).2.1, true)
    else
      ({ p with reordered := true, goodArgNum := false },
        format.drop (parseArgNumber format).2.1, (parseArgNumber format).2.2)
  else (p, format, false)

/-- The value of an operand as an `int`, when it is of integer kind. -/
def intOf {α : Type} (P : Printer α) : Value α → Option Int
  | Value.other x => P.intValue x
  | _ => none

/-- `intFromArg`: the operand `a[argNum]` as a width or precision. -/
def intFromArg {α : Type} (P : Printer α) (a : List (Value α)) (argNum : Nat) :
    Int × Bool × Nat :=
  match a.get? argNum with
  | some arg =>
    match intOf P arg with
    | some num => if tooLarge num then (0, false, argNum + 1) else (num, true, argNum + 1)
    | none => (0, false, argNum + 1)
  | none => (0, false, argNum)

/-- `(*fmt).fmtS` for a string operand: without precision and width the string
is written unchanged (`truncateString` and `padString` return at once). -/
def fmtS {α : Type} (P : Printer α) (f : fmtFlags) (s : GoString) (verb : Nat) : GoString :=
  if !f.precPresent && (!f.widPresent || f.wid == 0) then s
  else P.render f (Value.str s) verb

/-- `(*pp).printArg`: the bytes appended for one operand. A string under `%s`, or
under `%v` without the `#` flag, goes to `fmtS`. -/
def printArg {α : Type} (P : Printer α) (f : fmtFlags) (arg : Value α) (verb : Nat) :
    GoString :=
  match arg with
  | Value.str s =>
    if verb = 115 ∨ (verb = 118 ∧ f.sharpV = false) then fmtS P f s verb
    else P.render f arg verb
  | _ => P.render f arg verb

/-- The flag loop `simpleFormat` of `doPrintf`: the flags read, the verb when the
fast path applies (a lower-case ASCII verb with an operand available), and the
unread format. -/
def simpleFormat (avail : Bool) : GoString → fmtFlags → fmtFlags × Option Nat × GoString
  | [], f => (f, none, [])
  | c :: rest, f =>
    if c = 35 then simpleFormat avail rest { f with sharp := true }                 -- '#'
    else if c = 48 then simpleFormat avail rest { f with zero := !f.minus }         -- '0'
    else if c = 43 then simpleFormat avail rest { f with plus := true }             -- '+'
    else if c = 45 then simpleFormat avail rest { f with minus := true, zero := false } -- '-'
    else if c = 32 then simpleFormat avail rest { f with space := true }            -- ' '
    else if 97 ≤ c ∧ c ≤ 122 ∧ avail = true then (f, some c, rest)                  -- 'a'..'z'
    else (f, none, c :: rest)

/-- The flag changes `doPrintf` makes for the verbs `w` (119) and `v` (118). -/
def verbFlags (p : pp) (verb : Nat) : pp :=
  if verb = 119 then
    { p with wrappedErrs := p.wrappedErrs ++ [p.argNum],
             fmt := { p.fmt with sharpV := p.fmt.sharp, sharp := false,
                                 plusV := p.fmt.plus, plus := false } }
  else if verb = 118 then
    { p with fmt := { p.fmt with sharpV := p.fmt.sharp, sharp := false,
                                 plusV := p.fmt.plus, plus := false } }
  else p

/-- Print the operand `a[argNum]` under `verb` and move to the next operand
(`argNum` is in range wherever this is called). -/
def printOperand {α : Type} (P : Printer α) (a : List (Value α)) (p : pp) (verb : Nat) : pp :=
  { verbFlags p verb with
    buf := p.buf ++ printArg P (verbFlags p verb).fmt (a.getD p.argNum Value.nil) verb,
    argNum := p.argNum + 1 }

/-- The width taken from an operand (`*`). -/
def starWidth {α : Type} (P : Printer α) (a : List (Value α)) (p : pp) : pp :=
  match intFromArg P a p.argNum with
  | (num, isInt, n) =>
    { p with
      fmt := if num < (0 : Int) then
               { p.fmt with wid := -num, widPresent := isInt, minus := true, zero := false }
             else { p.fmt with wid := num, widPresent := isInt },
      buf := if isInt then p.buf else p.buf ++ badWidthString,
      argNum := n,
      afterIndex := false }

/-- "Do we have width?" -/
def width {α : Type} (P : Printer α) (a : List (Value α)) (p : pp) (format : GoString) :
    pp × GoString :=
  if format.head? = some 42 then                 -- '*'
    (starWidth P a p, format.drop 1)
  else
    ({ p with
       fmt := { p.fmt with wid := (parsenum format).1, widPresent := (parsenum format).2.1 },
       goodArgNum := if p.afterIndex && (parsenum format).2.1 then false else p.goodArgNum },
     (parsenum format).2.2)

/-- The precision taken from an operand (`.*`). -/
def starPrec {α : Type} (P : Printer α) (a : List (Value α)) (p : pp) : pp :=
  match intFromArg P a p.argNum with
  | (num, isInt, n) =>
    { p with
      fmt := if num < (0 : Int) then { p.fmt with prec := 0, precPresent := false }
             else { p.fmt with prec := num, precPresent := isInt },
      buf := if num < (0 : Int) ∨ isInt = false then p.buf ++ badPrecString else p.buf,
      argNum := n,
      afterIndex := false }

/-- "Do we have precision?" -/
def precision {α : Type} (P : Printer α) (a : List (Value α)) (p : pp) (format : GoString) :
    pp × GoString :=
  if format.head? = some 46 then                 -- '.'
    match argNumber (if p.afterIndex then { p with goodArgNum := false } else p)
        (format.drop 1) a.length with
    | (p, rest, found) =>
      if rest.head? = some 42 then               -- '*'
        (starPrec P a p, rest.drop 1)
      else
        ({ p with
           fmt := if (parsenum rest).2.1 then
                    { p.fmt with prec := (parsenum rest).1, precPresent := true }
                  else { p.fmt with prec := 0, precPresent := true },
           afterIndex := found },
         (parsenum rest).2.2)
  else (p, format)

/-- The verb of a directive, a rune, and what follows it in the format. -/
def readVerb (format : GoString) : Nat × GoString :=
  if format.headD 0 ≥ 128 then                   -- utf8.RuneSelf
    ((utf8.DecodeRuneInString format).1, format.drop (utf8.DecodeRuneInString format).2)
  else (format.headD 0, format.drop 1)

/-- The `switch` on the verb at the end of a directive. -/
def verbSwitch {α : Type} (P : Printer α) (a : List (Value α)) (p : pp) (verb : Nat) : pp :=
  if verb = 37 then { p with buf := p.buf ++ [37] }        -- '%'
  else if p.goodArgNum = false then
    { p with buf := p.buf ++ percentBangString ++ utf8.EncodeRune verb ++ badIndexString }
  else if p.argNum ≥ a.length then
    { p with buf := p.buf ++ percentBangString ++ utf8.EncodeRune verb ++ missingString }
  else printOperand P a p verb

/-- The second look for an argument index, made unless one was just read. -/
def argNumberAgain (p : pp) (format : GoString) (numArgs : Nat) : pp × GoString :=
  if p.afterIndex then (p, format)
  else
    match argNumber p format numArgs with
    | (p, format, found) => ({ p with afterIndex := found }, format)

/-- The general path of a directive, after the flags: argument index, width,
precision and verb. The result is the unread format, or `none` when the format
ended before a verb (`break` after writing `%!(NOVERB)`). -/
def directive {α : Type} (P : Printer α) (a : List (Value α)) (p : pp) (format : GoString) :
    pp × Option GoString :=
  match argNumber p format a.length with
  | (p, format, found) =>
    match width P a { p with afterIndex := found } format with
    | (p, format) =>
      match precision P a p format with
      | (p, format) =>
        match argNumberAgain p format a.length with
        | (p, format) =>
          if format = [] then ({ p with buf := p.buf ++ noVerbString }, none)
          else (verbSwitch P a p (readVerb format).1, some (readVerb format).2)

/-- The loop `formatLoop` of `doPrintf`; one unit of fuel per directive. -/
def formatLoop {α : Type} (P : Printer α) (a : List (Value α)) :
    Nat → GoString → pp → Option pp
  | 0, _, _ => none
  | fuel + 1, format, p =>
    match format.dropWhile (· ≠ 37) with         -- up to the next '%'
    | [] => some { p with goodArgNum := true, buf := p.buf ++ format }
    | _ :: rest =>
      match simpleFormat (decide (p.argNum < a.length)) rest (clearflags p.fmt) with
      | (f, some c, rest) =>
        formatLoop P a fuel rest
          (printOperand P a
            { p with goodArgNum := true, buf := p.buf ++ format.takeWhile (· ≠ 37), fmt := f } c)
      | (f, none, rest) =>
        match directive P a
            { p with goodArgNum := true, buf := p.buf ++ format.takeWhile (· ≠ 37), fmt := f }
            rest with
        | (p, none) => some p
        | (p, some rest) => formatLoop P a fuel rest p

/-- The text `reflect.TypeOf(arg).String()`. -/
def typeOf {α : Type} (P : Printer α) : Value α → GoString
  | Value.str _ => bytes "string"
  | Value.other x => P.typeString x
  | Value.nil => nilAngleString

/-- The operands left over, as listed inside `%!(EXTRA ...)`. -/
def extraArgs {α : Type} (P : Printer α) (f : fmtFlags) : List (Value α) → GoString
  | [] => []
  | arg :: rest =>
    (match arg with
     | Value.nil => nilAngleString
     | _ => typeOf P arg ++ [61] ++ printArg P f arg 118)
    ++ (if rest.isEmpty then [] else commaSpaceString ++ extraArgs P f rest)

/-- `(*pp).doPrintf`: the state of the printer after formatting. -/
def doPrintf {α : Type} (P : Printer α) (format : GoString) (a : List (Value α)) : Option pp :=
  match formatLoop P a (format.length + 1) format {} with
  | none => none
  | some p =>
    if p.reordered = false ∧ p.argNum < a.length then
      some { p with
             fmt := clearflags p.fmt,
             buf := p.buf ++ extraString ++ extraArgs P (clearflags p.fmt) (a.drop p.argNum)
                      ++ [41] }
    else some p

/-- `fmt.Sprintf`. -/
def Sprintf {α : Type} (P : Printer α) (format : GoString) (a : List (Value α)) : GoString :=
  match doPrintf P format a with
  | some p => p.buf
  | none => []

end fmt

/-! ## package io -/

/-- An `io.Writer` over a state `σ`: `Write(p)` returns the new state, the number
of bytes written and the error. -/
structure Writer (σ : Type) where
  Write : σ → GoString → σ × Nat × Option Error

/-- `fmt.Fprintf`: formats, then makes one `Write` call with the whole buffer. -/
def fmt.Fprintf {σ α : Type} (P : fmt.Printer α) (w : Writer σ) (s : σ) (format : GoString)
    (a : List (fmt.Value α)) : σ × Nat × Option Error :=
  w.Write s (fmt.Sprintf P format a)

/-- A sink that keeps every write: the list of the `Write` calls made so far. -/
def recorder : Writer (List GoString) where
  Write := fun s p => (s ++ [p], p.length, none)

/-- A printer for examples: operands other than plain strings print as `?`. -/
def examplePrinter : fmt.Printer Unit where
  render := fun _ _ _ => [63]
  typeString := fun _ => bytes "T"
  intValue := fun _ => none

/-! ## package os -/

namespace os

/-- The process environment: the value of each variable that is set. -/
abbrev Environ := GoString → Option GoString

/-- `os.Getenv`: the value of the variable, empty when it is not set. -/
def Getenv (env : Environ) (key : GoString) : GoString := (env key).getD []

/-- A failure of a system call: the error number, and for a write the number of
bytes that reached the file before it failed. -/
structure Fault where
  errno : Nat
  written : Nat := 0
  deriving DecidableEq, Repr

/-- The file operations a program performs, in order. -/
inductive Event where
  | OpenFile (name : GoString)
  | WriteString (name : GoString) (content : GoString)
  | Close (name : GoString)
  deriving DecidableEq, Repr

/-- The part of the world the program acts on: the environment, the content of
every existing file, the outcomes the operating system will give to the coming
file operations (`none` or nothing left: success), and the operations made so
far. -/
structure World where
  env : Environ
  files : GoString → Option GoString
  faults : List (Option Fault)
  trace : List Event

/-- An open file (`*os.File`); it was opened for appending, so it is known by
its name. -/
structure File where
  name : GoString
  deriving DecidableEq, Repr

/-- `os.OpenFile(name, O_APPEND|O_WRONLY|O_CREATE, 0644)`: on success the file
exists afterwards, empty if it did not exist before. -/
def OpenFile (w : World) (name : GoString) : World × Except Error File :=
  match w.faults.headD none with
  | some f =>
    ({ w with faults := w.faults.tail, trace := w.trace ++ [Event.OpenFile name] },
      Except.error (Error.os f.errno))
  | none =>
    ({ w with
       faults := w.faults.tail,
       trace := w.trace ++ [Event.OpenFile name],
       files := fun n => if n = name then some ((w.files name).getD []) else w.files n },
      Except.ok { name := name })

/-- `(*File).WriteString` on a file opened with `O_APPEND`: the bytes go to the
end of the file. -/
def File.WriteString (f : File) (w : World) (s : GoString) : World × Nat × Option Error :=
  match w.faults.headD none with
  | some flt =>
    ({ w with
       faults := w.faults.tail,
       trace := w.trace ++ [Event.WriteString f.name s],
       files := fun n =>
         if n = f.name then some ((w.files f.name).getD [] ++ s.take flt.written)
         else w.files n },
      min flt.written s.length, some (Error.os flt.errno))
  | none =>
    ({ w with
       faults := w.faults.tail,
       trace := w.trace ++ [Event.WriteString f.name s],
       files := fun n =>
         if n = f.name then some ((w.files f.name).getD [] ++ s) else w.files n },
      s.length, none)

/-- `(*File).Close`. -/
def File.Close (f : File) (w : World) : World × Option Error :=
  ({ w with faults := w.faults.tail, trace := w.trace ++ [Event.Close f.name] },
    (w.faults.headD none).map fun flt => Error.os flt.errno)

end os

/-! ## package path -/

namespace path

/-- The `..` case of `Clean` when it can backtrack: `out.w--`, then
`for out.w > dotdot && out.index(out.w) != '/' { out.w-- }`. The buffer is given
reversed, with the byte that was dropped last. -/
def backtrackLoop (dotdot : Nat) : GoString → Nat → GoString
  | [], _ => []
  | c :: rev, dropped =>
    if (c :: rev).length > dotdot ∧ dropped ≠ 47 then backtrackLoop dotdot rev c
    else c :: rev

/-- The buffer after backtracking over the last element. -/
def backtrack (out : GoString) (dotdot : Nat) : GoString :=
  match out.reverse with
  | [] => []
  | c :: rev => (backtrackLoop dotdot rev c).reverse

/-- The loop of `path.Clean`: `path` is the unread input `path[r:]`, `out` the
content of the output buffer (`out.w` is its length). -/
def cleanLoop (rooted : Bool) : Nat → GoString → GoString → Nat → Option GoString
  | 0, _, _, _ => none
  | _ + 1, [], out, _ => some out
  | fuel + 1, c :: rest, out, dotdot =>
    if c = 47 then
      -- empty path element
      cleanLoop rooted fuel rest out dotdot
    else if c = 46 ∧ (rest = [] ∨ rest.head? = some 47) then
      -- . element
      cleanLoop rooted fuel rest out dotdot
    else if c = 46 ∧ rest.head? = some 46 ∧ (rest.tail = [] ∨ rest.tail.head? = some 47) then
      -- .. element: remove to last /
      if out.length > dotdot then
        cleanLoop rooted fuel rest.tail (backtrack out dotdot) dotdot
      else if rooted = false then
        cleanLoop rooted fuel rest.tail
          ((if out.length > 0 then out ++ [47] else out) ++ [46, 46])
          ((if out.length > 0 then out ++ [47] else out) ++ [46, 46]).length
      else cleanLoop rooted fuel rest.tail out dotdot
    else
      -- real path element: add slash if needed, copy element
      cleanLoop rooted fuel ((c :: rest).dropWhile (· ≠ 47))
        ((if (rooted = true ∧ out.length ≠ 1) ∨ (rooted = false ∧ out.length ≠ 0)
            then out ++ [47] else out) ++ (c :: rest).takeWhile (· ≠ 47))
        dotdot

/-- The output buffer of `path.Clean` at the end of its loop. -/
def cleanOut (path : GoString) : Option GoString :=
  if path.head? = some 47 then cleanLoop true (path.length + 1) (path.drop 1) [47] 1
  else cleanLoop false (path.length + 1) path [] 0

/-- `path.Clean`. -/
def Clean (path : GoString) : GoString :=
  if path = [] then bytes "."
  else
    match cleanOut path with
    | some out => if out = [] then bytes "." else out
    | none => []

/-- The buffer `path.Join` builds: the elements from the first non-empty one on,
separated by slashes. -/
def joinBuf : GoString → List GoString → GoString
  | buf, [] => buf
  | buf, e :: elem =>
    if buf.length > 0 ∨ e ≠ [] then
      joinBuf ((if buf.length > 0 then buf ++ [47] else buf) ++ e) elem
    else joinBuf buf elem

/-- `path.Join`. -/
def Join (elem : List GoString) : GoString :=
  if (elem.map List.length).sum = 0 then []
  else Clean (joinBuf [] elem)

end path

/-! ## package net/url -/

namespace url

/-- The `encoding` modes of `net/url`. -/
inductive encoding where
  | encodePath
  | encodePathSegment
  | encodeHost
  | encodeZone
  | encodeUserPassword
  | encodeQueryComponent
  | encodeFragment
  deriving DecidableEq, Repr

/-- `ishex`. -/
def ishex (c : Nat) : Bool :=
  decide ((48 ≤ c ∧ c ≤ 57) ∨ (97 ≤ c ∧ c ≤ 102) ∨ (65 ≤ c ∧ c ≤ 70))

/-- `unhex`. -/
def unhex (c : Nat) : Nat :=
  if 48 ≤ c ∧ c ≤ 57 then c - 48
  else if 97 ≤ c ∧ c ≤ 102 then c - 97 + 10
  else if 65 ≤ c ∧ c ≤ 70 then c - 65 + 10
  else 0

/-- `shouldEscape`: must the byte be escaped in the given part of a URL? -/
def shouldEscape (c : Nat) (mode : encoding) : Bool :=
  -- §2.3 Unreserved characters (alphanum)
  if (97 ≤ c ∧ c ≤ 122) ∨ (65 ≤ c ∧ c ≤ 90) ∨ (48 ≤ c ∧ c ≤ 57) then false
  -- §3.2.2 Host allows sub-delims, and : [ ] < > "
  else if (mode = encoding.encodeHost ∨ mode = encoding.encodeZone)
      ∧ c ∈ bytes "!$&'()*+,;=:[]<>\"" then false
  -- §2.3 Unreserved characters (mark)
  else if c ∈ bytes "-_.~" then false
  -- §2.2 Reserved characters (reserved)
  else if c ∈ bytes "$&+,/:;=?@" then
    match mode with
    | encoding.encodePath => c == 63
    | encoding.encodePathSegment => c == 47 || c == 59 || c == 44 || c == 63
    | encoding.encodeUserPassword => c == 64 || c == 47 || c == 63 || c == 58
    | encoding.encodeQueryComponent => true
    | encoding.encodeFragment => false
    | _ => true
  else if mode = encoding.encodeFragment ∧ c ∈ bytes "!()*" then false
  -- Everything else must be escaped.
  else true

/-- The first loop of `unescape`: counts `%` and checks that they are well
formed; the result is `(n, hasPlus)`. -/
def unescapeCheck (mode : encoding) : GoString → Nat → Bool → Except UrlErr (Nat × Bool)
  | [], n, hasPlus => Except.ok (n, hasPlus)
  | c :: rest, n, hasPlus =>
    if c = 37 then                                -- '%'
      match rest with
      | h1 :: h2 :: rest2 =>
        if !ishex h1 || !ishex h2 then Except.error (UrlErr.EscapeError [37, h1, h2])
        else if mode = encoding.encodeHost ∧ unhex h1 < 8 ∧ [37, h1, h2] ≠ bytes "%25" then
          Except.error (UrlErr.EscapeError [37, h1, h2])
        else if mode = encoding.encodeZone ∧ [37, h1, h2] ≠ bytes "%25"
            ∧ unhex h1 * 16 + unhex h2 ≠ 32
            ∧ shouldEscape (unhex h1 * 16 + unhex h2) encoding.encodeHost = true then
          Except.error (UrlErr.EscapeError [37, h1, h2])
        else unescapeCheck mode rest2 (n + 1) hasPlus
      | _ => Except.error (UrlErr.EscapeError (c :: rest))
    else if c = 43 then                           -- '+'
      unescapeCheck mode rest n (mode == encoding.encodeQueryComponent)
    else if (mode = encoding.encodeHost ∨ mode = encoding.encodeZone) ∧ c < 128
        ∧ shouldEscape c encoding.encodeHost = true then
      Except.error (UrlErr.InvalidHostError [c])
    else unescapeCheck mode rest n hasPlus

/-- The second loop of `unescape`: decodes `%XX`, and `+` in a query component. -/
def unescapeDecode (mode : encoding) : GoString → GoString
  | [] => []
  | c :: rest =>
    if c = 37 then
      match rest with
      | h1 :: h2 :: rest2 => (unhex h1 * 16 + unhex h2) :: unescapeDecode mode rest2
      | _ => []
    else if c = 43 then
      (if mode = encoding.encodeQueryComponent then 32 else 43) :: unescapeDecode mode rest
    else c :: unescapeDecode mode rest

/-- `unescape`. -/
def unescape (s : GoString) (mode : encoding) : Except UrlErr GoString :=
  match unescapeCheck mode s 0 false with
  | Except.error e => Except.error e
  | Except.ok (n, hasPlus) =>
    if n = 0 ∧ hasPlus = false then Except.ok s else Except.ok (unescapeDecode mode s)

/-- The digit `"0123456789ABCDEF"[n]`. -/
def upperhex (n : Nat) : Nat := if n < 10 then 48 + n else 55 + n

/-- `escape`: every byte is kept, written as `+` (a space in a query component)
or written as `%XX`. -/
def escape (s : GoString) (mode : encoding) : GoString :=
  s.flatMap fun c =>
    if c = 32 ∧ mode = encoding.encodeQueryComponent then [43]
    else if shouldEscape c mode then [37, upperhex (c / 16 % 16), upperhex (c % 16)]
    else [c]

/-- `validEncoded`. -/
def validEncoded (s : GoString) (mode : encoding) : Bool :=
  s.all fun c =>
    if c ∈ bytes "!$&'()*+,;=:@" then true
    else if c ∈ bytes "[]" then true
    else if c = 37 then true
    else !shouldEscape c mode

/-- `stringContainsCTLByte`. -/
def stringContainsCTLByte (s : GoString) : Bool :=
  s.any fun b => decide (b < 32 ∨ b = 127)

/-- `url.Userinfo`. -/
structure Userinfo where
  username : GoString := []
  password : GoString := []
  passwordSet : Bool := false
  deriving DecidableEq, Repr

/-- `(*Userinfo).String`. -/
def Userinfo.String (u : Userinfo) : GoString :=
  escape u.username encoding.encodeUserPassword
    ++ (if u.passwordSet then [58] ++ escape u.password encoding.encodeUserPassword else [])

/-- `url.URL`. -/
structure URL where
  Scheme : GoString := []
  Opaque : GoString := []
  User : Option Userinfo := none
  Host : GoString := []
  Path : GoString := []
  RawPath : GoString := []
  OmitHost : Bool := false
  ForceQuery : Bool := false
  RawQuery : GoString := []
  Fragment : GoString := []
  RawFragment : GoString := []
  deriving DecidableEq, Repr

/-- The loop of `getScheme`: `rest` is `rawURL[i:]`. -/
def getSchemeLoop (rawURL : GoString) : GoString → Nat → Except UrlErr (GoString × GoString)
  | [], _ => Except.ok ([], rawURL)
  | c :: rest, i =>
    if (97 ≤ c ∧ c ≤ 122) ∨ (65 ≤ c ∧ c ≤ 90) then getSchemeLoop rawURL rest (i + 1)
    else if (48 ≤ c ∧ c ≤ 57) ∨ c = 43 ∨ c = 45 ∨ c = 46 then
      if i = 0 then Except.ok ([], rawURL) else getSchemeLoop rawURL rest (i + 1)
    else if c = 58 then                           -- ':'
      if i = 0 then Except.error UrlErr.missingProtocolScheme
      else Except.ok (rawURL.take i, rest)
    else Except.ok ([], rawURL)

/-- `getScheme`: the scheme and what follows its colon. -/
def getScheme (rawURL : GoString) : Except UrlErr (GoString × GoString) :=
  getSchemeLoop rawURL rawURL 0

/-- `validOptionalPort`: empty, or a colon followed by digits. -/
def validOptionalPort (port : GoString) : Bool :=
  match port with
  | [] => true
  | c :: rest => c == 58 && rest.all fun b => decide (48 ≤ b ∧ b ≤ 57)

/-- `validUserinfo`. -/
def validUserinfo (s : GoString) : Bool :=
  s.all fun r =>
    decide ((65 ≤ r ∧ r ≤ 90) ∨ (97 ≤ r ∧ r ≤ 122) ∨ (48 ≤ r ∧ r ≤ 57)
      ∨ r ∈ bytes "-._:~!$&'()*+,;=%@")

/-- `parseHost` as in Go 1.22: a host with an optional port. A host in brackets
is taken as an IP literal without checking that it is an IPv6 address, and a host
outside brackets may hold several colons as long as a valid port follows the
last one. -/
def parseHostGo122 (host : GoString) : Except UrlErr GoString :=
  if strings.HasPrefix host (bytes "[") then
    -- an IP-literal, "[fe80::1%25en0]:80"
    match strings.LastIndex host (bytes "]") with
    | none => Except.error UrlErr.missingBracket
    | some i =>
      if !validOptionalPort (host.drop (i + 1)) then
        Except.error (UrlErr.invalidPort (host.drop (i + 1)))
      else
        match strings.Index (host.take i) (bytes "%25") with
        | some zone =>
          match unescape (host.take zone) encoding.encodeHost with
          | Except.error e => Except.error e
          | Except.ok host1 =>
            match unescape ((host.take i).drop zone) encoding.encodeZone with
            | Except.error e => Except.error e
            | Except.ok host2 =>
              match unescape (host.drop i) encoding.encodeHost with
              | Except.error e => Except.error e
              | Except.ok host3 => Except.ok (host1 ++ host2 ++ host3)
        | none => unescape host encoding.encodeHost
  else
    match strings.LastIndex host (bytes ":") with
    | some i =>
      if !validOptionalPort (host.drop i) then Except.error (UrlErr.invalidPort (host.drop i))
      else unescape host encoding.encodeHost
    | none => unescape host encoding.encodeHost

/-- Where the releases of `net/url` differ. Go 1.22 accepts every bracketed host
and hosts with several colons (`http://[zz]`, `https://localhost:80:80`); later
releases check that a bracketed host is an IPv6 literal and reject several
colons. What `parseHost` returns on a host with a bracket, and on a host without
brackets and with more than one colon, is therefore a parameter. -/
structure HostRules where
  /-- The result of `parseHost` on a host that contains `[` or `]`. -/
  ipLiteral : GoString → Except UrlErr GoString
  /-- The result of `parseHost` on a host without brackets and with more than
  one colon. -/
  severalColons : GoString → Except UrlErr GoString

/-- The rules of Go 1.22. -/
def go122 : HostRules where
  ipLiteral := parseHostGo122
  severalColons := parseHostGo122

/-- `parseHost`: a host with an optional port. On a host without brackets and
with at most one colon every release checks the port after the colon and
unescapes the host; the other hosts are left to the rules of the release. -/
def parseHost (R : HostRules) (host : GoString) : Except UrlErr GoString :=
  if 91 ∈ host ∨ 93 ∈ host then R.ipLiteral host
  else if 2 ≤ host.count 58 then R.severalColons host
  else
    match strings.LastIndex host (bytes ":") with
    | some i =>
      if !validOptionalPort (host.drop i) then Except.error (UrlErr.invalidPort (host.drop i))
      else unescape host encoding.encodeHost
    | none => unescape host encoding.encodeHost

/-- The user information of an authority, `authority[:i]`. -/
def parseUserinfo (userinfo : GoString) : Except UrlErr Userinfo :=
  if !validUserinfo userinfo then Except.error UrlErr.invalidUserinfo
  else if !strings.Contains userinfo (bytes ":") then
    match unescape userinfo encoding.encodeUserPassword with
    | Except.error e => Except.error e
    | Except.ok username => Except.ok { username := username }
  else
    match unescape (strings.Cut userinfo (bytes ":")).1 encoding.encodeUserPassword with
    | Except.error e => Except.error e
    | Except.ok username =>
      match unescape (strings.Cut userinfo (bytes ":")).2.1 encoding.encodeUserPassword with
      | Except.error e => Except.error e
      | Except.ok password =>
        Except.ok { username := username, password := password, passwordSet := true }

/-- `parseAuthority`: the user information and the host. -/
def parseAuthority (R : HostRules) (authority : GoString) :
    Except UrlErr (Option Userinfo × GoString) :=
  match strings.LastIndex authority (bytes "@") with
  | none =>
    match parseHost R authority with
    | Except.error e => Except.error e
    | Except.ok host => Except.ok (none, host)
  | some i =>
    match parseHost R (authority.drop (i + 1)) with
    | Except.error e => Except.error e
    | Except.ok host =>
      match parseUserinfo (authority.take i) with
      | Except.error e => Except.error e
      | Except.ok user => Except.ok (some user, host)

/-- `(*URL).setPath`. -/
def URL.setPath (u : URL) (p : GoString) : Except UrlErr URL :=
  match unescape p encoding.encodePath with
  | Except.error e => Except.error e
  | Except.ok path =>
    Except.ok { u with
      Path := path,
      RawPath := if p = escape path encoding.encodePath then [] else p }

/-- `(*URL).setFragment`. -/
def URL.setFragment (u : URL) (f : GoString) : Except UrlErr URL :=
  match unescape f encoding.encodeFragment with
  | Except.error e => Except.error e
  | Except.ok frag =>
    Except.ok { u with
      Fragment := frag,
      RawFragment := if f = escape frag encoding.encodeFragment then [] else f }

/-- The end of `parse`: the authority, when the rest starts with `//`, and the
path. -/
def parseAuthorityPath (R : HostRules) (u : URL) (rest : GoString) (viaRequest : Bool) :
    Except UrlErr URL :=
  if (u.Scheme ≠ [] ∨ (viaRequest = false ∧ strings.HasPrefix rest (bytes "///") = false))
      ∧ strings.HasPrefix rest (bytes "//") = true then
    match parseAuthority R
        (match strings.Index (rest.drop 2) (bytes "/") with
         | some i => (rest.drop 2).take i
         | none => rest.drop 2) with
    | Except.error e => Except.error e
    | Except.ok (user, host) =>
      URL.setPath { u with User := user, Host := host }
        (match strings.Index (rest.drop 2) (bytes "/") with
         | some i => (rest.drop 2).drop i
         | none => [])
  else if u.Scheme ≠ [] ∧ strings.HasPrefix rest (bytes "/") = true then
    URL.setPath { u with OmitHost := true } rest
  else URL.setPath u rest

/-- The middle of `parse`: a rest that does not start with a slash is opaque
under a scheme, and must not have a colon in its first segment otherwise. -/
def parseRest (R : HostRules) (u : URL) (rest : GoString) (viaRequest : Bool) :
    Except UrlErr URL :=
  if strings.HasPrefix rest (bytes "/") = false then
    if u.Scheme ≠ [] then Except.ok { u with Opaque := rest }
    else if viaRequest then Except.error UrlErr.invalidURIForRequest
    else if strings.Contains (strings.Cut rest (bytes "/")).1 (bytes ":") then
      Except.error UrlErr.firstPathSegmentColon
    else parseAuthorityPath R u rest viaRequest
  else parseAuthorityPath R u rest viaRequest

/-- `parse`: a URL without its fragment. -/
def parse (R : HostRules) (rawURL : GoString) (viaRequest : Bool) : Except UrlErr URL :=
  if stringContainsCTLByte rawURL then Except.error UrlErr.invalidControlCharacter
  else if rawURL = [] ∧ viaRequest = true then Except.error UrlErr.emptyURL
  else if rawURL = bytes "*" then Except.ok { Path := bytes "*" }
  else
    match getScheme rawURL with
    | Except.error e => Except.error e
    | Except.ok (scheme, rest) =>
      if strings.HasSuffix rest (bytes "?") = true ∧ strings.Count rest 63 = 1 then
        parseRest R ({ Scheme := strings.ToLower scheme, ForceQuery := true } : URL)
          (rest.take (rest.length - 1)) viaRequest
      else
        parseRest R ({ Scheme := strings.ToLower scheme,
                       RawQuery := (strings.Cut rest (bytes "?")).2.1 } : URL)
          (strings.Cut rest (bytes "?")).1 viaRequest

/-- `url.Parse`. -/
def Parse (R : HostRules) (rawURL : GoString) : Except Error URL :=
  match parse R (strings.Cut rawURL (bytes "#")).1 false with
  | Except.error err =>
    Except.error (Error.url (bytes "parse") (strings.Cut rawURL (bytes "#")).1 err)
  | Except.ok u =>
    if (strings.Cut rawURL (bytes "#")).2.1 = [] then Except.ok u
    else
      match URL.setFragment u (strings.Cut rawURL (bytes "#")).2.1 with
      | Except.error err => Except.error (Error.url (bytes "parse") rawURL err)
      | Except.ok u => Except.ok u

/-- Does `unescape(s, mode)` succeed with the result `want`? -/
def unescapesTo (s : GoString) (mode : encoding) (want : GoString) : Bool :=
  match unescape s mode with
  | Except.ok p => p == want
  | Except.error _ => false

/-- `(*URL).EscapedPath`. -/
def URL.EscapedPath (u : URL) : GoString :=
  if u.RawPath ≠ [] ∧ validEncoded u.RawPath encoding.encodePath = true
      ∧ unescapesTo u.RawPath encoding.encodePath u.Path = true then u.RawPath
  else if u.Path = bytes "*" then bytes "*"
  else escape u.Path encoding.encodePath

/-- `(*URL).EscapedFragment`. -/
def URL.EscapedFragment (u : URL) : GoString :=
  if u.RawFragment ≠ [] ∧ validEncoded u.RawFragment encoding.encodeFragment = true
      ∧ unescapesTo u.RawFragment encoding.encodeFragment u.Fragment = true then u.RawFragment
  else escape u.Fragment encoding.encodeFragment

/-- The authority part `(*URL).String` writes: `//`, the user information and
the host. -/
def URL.authorityString (u : URL) : GoString :=
  if u.Scheme ≠ [] ∨ u.Host ≠ [] ∨ u.User ≠ none then
    if u.OmitHost = true ∧ u.Host = [] ∧ u.User = none then []
    else
      (if u.Host ≠ [] ∨ u.Path ≠ [] ∨ u.User ≠ none then bytes "//" else [])
      ++ (match u.User with
          | some ui => ui.String ++ [64]
          | none => [])
      ++ (if u.Host ≠ [] then escape u.Host encoding.encodeHost else [])
  else []

/-- What `(*URL).String` writes before the query: scheme, then the opaque part
or authority and path. -/
def URL.hierString (u : URL) : GoString :=
  let buf := if u.Scheme ≠ [] then u.Scheme ++ [58] else []
  if u.Opaque ≠ [] then buf ++ u.Opaque
  else
    let buf := buf ++ u.authorityString
    let path := u.EscapedPath
    let buf := if path ≠ [] ∧ path.head? ≠ some 47 ∧ u.Host ≠ [] then buf ++ [47] else buf
    let buf :=
      if buf.length = 0 ∧ strings.Contains (strings.Cut path (bytes "/")).1 (bytes ":") = true
      then buf ++ bytes "./" else buf
    buf ++ path

/-- `(*URL).String`. -/
def URL.String (u : URL) : GoString :=
  u.hierString
    ++ (if u.ForceQuery = true ∨ u.RawQuery ≠ [] then [63] ++ u.RawQuery else [])
    ++ (if u.Fragment ≠ [] then [35] ++ u.EscapedFragment else [])

end url

/-! ## workflow.go -/

/-- `FAddMask`: the state of the writer afterwards and the error returned. -/
def FAddMask {σ α : Type} (P : fmt.Printer α) (w : Writer σ) (s : σ) (value : GoString) :
    σ × Option Error :=
  match fmt.Fprintf P w s (bytes "::add-mask::%s\n") [fmt.Value.str value] with
  | (s, _, err) => (s, err)

/-- `AddMask`: `FAddMask` on `os.Stdout`. -/
def AddMask {σ α : Type} (P : fmt.Printer α) (Stdout : Writer σ) (s : σ) (value : GoString) :
    σ × Option Error :=
  FAddMask P Stdout s value

/-- `appendToFile`. -/
def appendToFile (w : os.World) (file content : GoString) : os.World × Option Error :=
  match os.OpenFile w file with
  | (w, Except.error err) => (w, some err)
  | (w, Except.ok f) =>
    match f.WriteString w content with
    | (w, _, err) =>
      match f.Close w with
      | (w, closeErr) =>
        match err with
        | some err => (w, some err)
        | none => (w, closeErr)

/-- The record `fmt.Sprintf("%s=%s\n", name, value)` that `SetOutput` appends. -/
def outputRecord {α : Type} (P : fmt.Printer α) (name value : GoString) : GoString :=
  fmt.Sprintf P (bytes "%s=%s\n") [fmt.Value.str name, fmt.Value.str value]

/-- `SetOutput`. -/
def SetOutput {α : Type} (P : fmt.Printer α) (w : os.World) (name value : GoString) :
    os.World × Option Error :=
  if os.Getenv w.env (bytes "GITHUB_OUTPUT") = [] then
    (w, some (Error.errorsNew (bytes "GITHUB_OUTPUT env variable not specified")))
  else appendToFile w (os.Getenv w.env (bytes "GITHUB_OUTPUT")) (outputRecord P name value)

/-- The content `SetSummary` appends: `markdownContent` after
`if !strings.HasSuffix(markdownContent, "\n") { markdownContent += "\n" }`. -/
def summaryContent (markdownContent : GoString) : GoString :=
  if strings.HasSuffix markdownContent (bytes "\n") = false then markdownContent ++ bytes "\n"
  else markdownContent

/-- `SetSummary`. -/
def SetSummary (w : os.World) (markdownContent : GoString) : os.World × Option Error :=
  if os.Getenv w.env (bytes "GITHUB_STEP_SUMMARY") = [] then
    (w, some (Error.errorsNew (bytes "GITHUB_STEP_SUMMARY env variable not specified")))
  else
    appendToFile w (os.Getenv w.env (bytes "GITHUB_STEP_SUMMARY"))
      (summaryContent markdownContent)

/-- `FLogDebugf`. -/
def FLogDebugf {σ α : Type} (P : fmt.Printer α) (w : Writer σ) (s : σ) (format : GoString)
    (a : List (fmt.Value α)) : σ × Option Error :=
  match fmt.Fprintf P w s (bytes "::debug::" ++ format ++ bytes "\n") a with
  | (s, _, err) => (s, err)

/-- `LogDebugf`: `FLogDebugf` on `os.Stdout`. -/
def LogDebugf {σ α : Type} (P : fmt.Printer α) (Stdout : Writer σ) (s : σ)
    (format : GoString) (a : List (fmt.Value α)) : σ × Option Error :=
  FLogDebugf P Stdout s format a

/-- `FLogWarnf`. -/
def FLogWarnf {σ α : Type} (P : fmt.Printer α) (w : Writer σ) (s : σ) (format : GoString)
    (a : List (fmt.Value α)) : σ × Option Error :=
  match fmt.Fprintf P w s (bytes "::warning::" ++ format ++ bytes "\n") a with
  | (s, _, err) => (s, err)

/-- `LogWarnf`: `FLogWarnf` on `os.Stdout`. -/
def LogWarnf {σ α : Type} (P : fmt.Printer α) (Stdout : Writer σ) (s : σ)
    (format : GoString) (a : List (fmt.Value α)) : σ × Option Error :=
  FLogWarnf P Stdout s format a

/-- `FLogErrorf`. -/
def FLogErrorf {σ α : Type} (P : fmt.Printer α) (w : Writer σ) (s : σ) (format : GoString)
    (a : List (fmt.Value α)) : σ × Option Error :=
  match fmt.Fprintf P w s (bytes "::error::" ++ format ++ bytes "\n") a with
  | (s, _, err) => (s, err)

/-- `LogErrorf`: `FLogErrorf` on `os.Stdout`. -/
def LogErrorf {σ α : Type} (P : fmt.Printer α) (Stdout : Writer σ) (s : σ)
    (format : GoString) (a : List (fmt.Value α)) : σ × Option Error :=
  FLogErrorf P Stdout s format a

/-- `GetRunURL`, on a release of `net/url` with the host rules `R`. -/
def GetRunURL (R : url.HostRules) (env : os.Environ) : GoString × Option Error :=
  match url.Parse R (os.Getenv env (bytes "GITHUB_SERVER_URL")) with
  | Except.error err => ([], some (Error.wrap (bytes "parsing server url: ") err))
  | Except.ok u =>
    (url.URL.String { u with
        Path := path.Join [os.Getenv env (bytes "GITHUB_REPOSITORY"), bytes "actions",
                           bytes "runs", os.Getenv env (bytes "GITHUB_RUN_ID")] },
      none)

/-- An environment given by a list of settings. -/
def environ (l : List (GoString × GoString)) : os.Environ := fun k => l.lookup k

/-- The environment of a run on github.com with the given server URL,
repository and run id. -/
def runEnv (server repo runID : GoString) : os.Environ :=
  environ [(bytes "GITHUB_SERVER_URL", server), (bytes "GITHUB_REPOSITORY", repo),
           (bytes "GITHUB_RUN_ID", runID)]


/-! ## Runs of several calls, and worlds for examples -/

/-- Calling `SetOutput` on each pair of a list, in order: the world afterwards
and the error of each call. -/
def SetOutputAll {α : Type} (P : fmt.Printer α) :
    os.World → List (GoString × GoString) → os.World × List (Option Error)
  | w, [] => (w, [])
  | w, nv :: rest =>
    ((SetOutputAll P (SetOutput P w nv.1 nv.2).1 rest).1,
      (SetOutput P w nv.1 nv.2).2 :: (SetOutputAll P (SetOutput P w nv.1 nv.2).1 rest).2)

/-- Every coming file operation succeeds. -/
def os.World.noFaults (w : os.World) : Prop := ∀ o ∈ w.faults, o = none

/-- A world for examples: `GITHUB_OUTPUT` is `out`, `GITHUB_STEP_SUMMARY` is
`sum`, no file exists and every operation succeeds. -/
def exampleWorld : os.World where
  env := environ [(bytes "GITHUB_OUTPUT", bytes "out"), (bytes "GITHUB_STEP_SUMMARY", bytes "sum")]
  files := fun _ => none
  faults := []
  trace := []

/-- A world for examples in which no variable is set. -/
def emptyWorld : os.World where
  env := environ []
  files := fun _ => none
  faults := []
  trace := []

/-- A world for examples in which the open succeeds, the write fails with error
5 after 2 bytes and the close fails with error 9. -/
def faultyWorld : os.World where
  env := environ []
  files := fun _ => none
  faults := [none, some { errno := 5, written := 2 }, some { errno := 9 }]
  trace := []


/-! ## Well-formed formats -/

namespace fmt

/-- A flag byte: `#`, `0`, `+`, `-` or a space. -/
def isFlag (c : Nat) : Prop := c = 35 ∨ c = 48 ∨ c = 43 ∨ c = 45 ∨ c = 32

/-- A decimal digit. -/
def isDigit (c : Nat) : Prop := 48 ≤ c ∧ c ≤ 57

/-- An ASCII letter. -/
def isLetter (c : Nat) : Prop := (97 ≤ c ∧ c ≤ 122) ∨ (65 ≤ c ∧ c ≤ 90)

/-- A width written in the format: no digit, or up to six digits of which the
first is not `0` (a leading `0` is a flag). -/
def isWidth (wd : GoString) : Prop :=
  (∀ c ∈ wd, isDigit c) ∧ wd.length ≤ 6 ∧ wd.head? ≠ some 48

/-- A precision written in the format: nothing, or a dot and up to six digits. -/
def isPrec (pr : GoString) : Prop :=
  pr = [] ∨ ∃ ds : GoString, pr = 46 :: ds ∧ (∀ c ∈ ds, isDigit c) ∧ ds.length ≤ 6

/-- `WellFormed f n`: the format `f` is plain text, `%%`, and `n` directives of
the form `%`, flags, width, precision, verb letter; it takes exactly `n`
operands. -/
inductive WellFormed : GoString → Nat → Prop where
  | done : WellFormed [] 0
  | text (c : Nat) (f : GoString) (n : Nat) :
      c ≠ 37 → WellFormed f n → WellFormed (c :: f) n
  | percent (f : GoString) (n : Nat) :
      WellFormed f n → WellFormed (37 :: 37 :: f) n
  | verb (flags wd pr : GoString) (v : Nat) (f : GoString) (n : Nat) :
      (∀ c ∈ flags, isFlag c) → isWidth wd → isPrec pr → isLetter v →
      WellFormed f n → WellFormed (37 :: (flags ++ (wd ++ (pr ++ v :: f)))) (n + 1)

end fmt


/-- The flags after a width written as the digits `wd`. -/
def fmt.widthFlags (fl : fmt.fmtFlags) (wd : GoString) : fmt.fmtFlags :=
  { fl with wid := (fmt.parsenum wd).1, widPresent := (fmt.parsenum wd).2.1 }

/-- The flags after a precision written as `pr`: nothing, or a dot and digits. -/
def fmt.precFlags (fl : fmt.fmtFlags) (pr : GoString) : fmt.fmtFlags :=
  match pr with
  | [] => fl
  | _ :: ds =>
    if (fmt.parsenum ds).2.1 then { fl with prec := (fmt.parsenum ds).1, precPresent := true }
    else { fl with prec := 0, precPresent := true }


/-! ## Path segments -/

/-- The segments of a path: the pieces between its slashes
(`strings.Split(s, "/")`). -/
def segments : GoString → List GoString
  | [] => [[]]
  | c :: rest =>
    if c = 47 then [] :: segments rest
    else
      match segments rest with
      | seg :: segs => (c :: seg) :: segs
      | [] => [[c]]

/-- The non-empty segments of a path. -/
def nonEmptySegments (s : GoString) : List GoString := (segments s).filter (· ≠ [])

/-- No segment of the path is `.` or `..`. -/
def noDotSegments (s : GoString) : Prop := ∀ seg ∈ segments s, seg ≠ [46] ∧ seg ≠ [46, 46]

/-- The output buffer of `path.Clean` after the given real path elements. -/
def addSegments (rooted : Bool) : GoString → List GoString → GoString
  | out, [] => out
  | out, seg :: segs =>
    addSegments rooted
      ((if (rooted = true ∧ out.length ≠ 1) ∨ (rooted = false ∧ out.length ≠ 0)
          then out ++ [47] else out) ++ seg) segs


/-! ## Plain server URLs, repositories and run ids -/

/-- A byte of a lower-case URL scheme after its first letter: a lower-case
letter, a digit, `+`, `-` or `.`. -/
def isSchemeByte (c : Nat) : Prop :=
  (97 ≤ c ∧ c ≤ 122) ∨ (48 ≤ c ∧ c ≤ 57) ∨ c = 43 ∨ c = 45 ∨ c = 46

/-- A lower-case scheme: a lower-case letter followed by scheme bytes. -/
def isLowerScheme (s : GoString) : Prop :=
  (∃ c, s.head? = some c ∧ 97 ≤ c ∧ c ≤ 122) ∧ ∀ c ∈ s, isSchemeByte c

/-- A byte of a plain host name: an ASCII letter, a digit, `-`, `.`, `_` or `~`. -/
def isHostByte (c : Nat) : Prop :=
  (97 ≤ c ∧ c ≤ 122) ∨ (65 ≤ c ∧ c ≤ 90) ∨ (48 ≤ c ∧ c ≤ 57)
    ∨ c = 45 ∨ c = 46 ∨ c = 95 ∨ c = 126

/-- A plain host name: non-empty, of host bytes. -/
def isPlainHost (s : GoString) : Prop := s ≠ [] ∧ ∀ c ∈ s, isHostByte c

/-- A byte of a name: an ASCII letter, a digit, `-` or `_`. -/
def isNameByte (c : Nat) : Prop :=
  (97 ≤ c ∧ c ≤ 122) ∨ (65 ≤ c ∧ c ≤ 90) ∨ (48 ≤ c ∧ c ≤ 57) ∨ c = 45 ∨ c = 95

/-- A name: a non-empty string of ASCII letters, digits, `-` and `_`. -/
def isName (s : GoString) : Prop := s ≠ [] ∧ ∀ c ∈ s, isNameByte c


/-! ## Formatting with the constant formats of workflow.go -/

/-- The format of `FAddMask` prints the prefix, the operand and a newline. -/
theorem Sprintf_addMask {α : Type} (P : fmt.Printer α) (v : GoString) :
    fmt.Sprintf P (bytes "::add-mask::%s\n") [fmt.Value.str v]
      = bytes "::add-mask::" ++ v ++ bytes "\n" := by
  simp [fmt.Sprintf, fmt.doPrintf, bytes, fmt.formatLoop, fmt.simpleFormat, fmt.clearflags,
    fmt.printOperand, fmt.verbFlags, fmt.printArg, fmt.fmtS]

/-- The record of `SetOutput` is the name, `=`, the value and a newline. -/
theorem outputRecord_eq {α : Type} (P : fmt.Printer α) (name value : GoString) :
    outputRecord P name value = name ++ [61] ++ value ++ [10] := by
  simp [outputRecord, fmt.Sprintf, fmt.doPrintf, bytes, fmt.formatLoop, fmt.simpleFormat,
    fmt.clearflags, fmt.printOperand, fmt.verbFlags, fmt.printArg, fmt.fmtS]


/-! ## Appending to a file -/

theorem noFaults_headD (w : os.World) (h : w.noFaults) : w.faults.headD none = none := by
  unfold os.World.noFaults at h
  cases hf : w.faults with
  | nil => rfl
  | cons o r => rw [hf] at h; simpa using h o (by simp)

theorem noFaults_tail (l : List (Option os.Fault)) (h : ∀ o ∈ l, o = none) :
    ∀ o ∈ l.tail, o = none := fun o ho => h o (List.mem_of_mem_tail ho)

theorem headD_tail_none (l : List (Option os.Fault)) (h : ∀ o ∈ l, o = none) :
    l.tail.headD none = none := by
  cases l with
  | nil => rfl
  | cons a r =>
    cases r with
    | nil => rfl
    | cons b r => simpa using h b (by simp)

/-- With every operation succeeding, `appendToFile` appends the content to the
file, creates it if needed, reports no error and makes one open, one write and
one close. -/
theorem appendToFile_ok (w : os.World) (file content : GoString) (h : w.noFaults) :
    (appendToFile w file content).2 = none
    ∧ (appendToFile w file content).1.env = w.env
    ∧ (appendToFile w file content).1.noFaults
    ∧ (appendToFile w file content).1.files file = some ((w.files file).getD [] ++ content)
    ∧ (∀ other, other ≠ file → (appendToFile w file content).1.files other = w.files other)
    ∧ (appendToFile w file content).1.trace
        = w.trace ++ [os.Event.OpenFile file, os.Event.WriteString file content,
                      os.Event.Close file] := by
  have h0 := noFaults_headD w h
  have h1 : w.faults.tail.headD none = none := headD_tail_none _ h
  have h2 : w.faults.tail.tail.headD none = none := headD_tail_none _ (noFaults_tail _ h)
  simp only [appendToFile, os.OpenFile, h0, os.File.WriteString, h1, os.File.Close, h2]
  refine ⟨by simp, by simp, ?_, ?_, ?_, ?_⟩
  · exact noFaults_tail _ (noFaults_tail _ (noFaults_tail _ h))
  · simp
  · intro other ho; simp [ho]
  · simp

/-- The error of `appendToFile` is an error of the operating system. -/
theorem appendToFile_error (w : os.World) (file content : GoString) :
    (appendToFile w file content).2 = none
    ∨ ∃ n, (appendToFile w file content).2 = some (Error.os n) := by
  rcases hf : w.faults with _ | ⟨_ | f1, _ | ⟨_ | f2, _ | ⟨_ | f3, r⟩⟩⟩ <;>
    simp [appendToFile, os.OpenFile, os.File.WriteString, os.File.Close, hf]

theorem SetOutputAll_ok {α : Type} (P : fmt.Printer α) (pairs : List (GoString × GoString)) :
    ∀ w : os.World, os.Getenv w.env (bytes "GITHUB_OUTPUT") ≠ [] → w.noFaults →
      (SetOutputAll P w pairs).1.files (os.Getenv w.env (bytes "GITHUB_OUTPUT"))
          = (if pairs = [] then w.files (os.Getenv w.env (bytes "GITHUB_OUTPUT"))
             else some ((w.files (os.Getenv w.env (bytes "GITHUB_OUTPUT"))).getD []
                ++ (pairs.map fun nv => nv.1 ++ [61] ++ nv.2 ++ [10]).flatten))
      ∧ (SetOutputAll P w pairs).2 = pairs.map (fun _ => none)
      ∧ ((SetOutputAll P w pairs).1.trace.filter
            fun e => match e with
              | os.Event.WriteString _ _ => true
              | _ => false)
          = (w.trace.filter fun e => match e with
              | os.Event.WriteString _ _ => true
              | _ => false)
            ++ pairs.map fun nv =>
                os.Event.WriteString (os.Getenv w.env (bytes "GITHUB_OUTPUT"))
                  (nv.1 ++ [61] ++ nv.2 ++ [10]) := by
  induction pairs with
  | nil => intro w _ _; simp [SetOutputAll]
  | cons nv rest ih =>
    intro w hfile hw
    obtain ⟨e1, e2, e3, e4, _, e6⟩ :=
      appendToFile_ok w (os.Getenv w.env (bytes "GITHUB_OUTPUT")) (outputRecord P nv.1 nv.2) hw
    have hS : SetOutput P w nv.1 nv.2
        = appendToFile w (os.Getenv w.env (bytes "GITHUB_OUTPUT")) (outputRecord P nv.1 nv.2) := by
      simp [SetOutput, hfile]
    have ih' := ih (SetOutput P w nv.1 nv.2).1 (by rw [hS, e2]; exact hfile) (by rw [hS]; exact e3)
    simp only [SetOutputAll]
    rw [hS] at ih' ⊢
    rw [e2] at ih'
    obtain ⟨i1, i2, i3⟩ := ih'
    refine ⟨?_, ?_, ?_⟩
    · rw [i1, e4, outputRecord_eq]
      by_cases hr : rest = []
      · simp [hr]
      · simp [hr]
    · simp [e1, i2]
    · rw [i3, e6, outputRecord_eq]; simp


/-! ## The claims on masking, outputs and summaries -/

theorem HasSuffix_newline (m : GoString) :
    strings.HasSuffix m (bytes "\n") = true ↔ m.getLast? = some 10 := by
  induction m using List.reverseRecOn with
  | nil => simp [strings.HasSuffix, bytes]
  | append_singleton l a _ =>
    simp [strings.HasSuffix, bytes]

/-- C1: for every string `v`, `FAddMask` makes one `Write` call on the sink, with
exactly the bytes `::add-mask::`, `v` unchanged and one newline; a sink that keeps
what it receives holds that line and nothing else afterwards; `AddMask` does the same on
standard output. -/
theorem C1_FAddMask_writes_mask_line {σ α : Type} (P : fmt.Printer α) (w : Writer σ) (s : σ)
    (v : GoString) (log : List GoString) :
    FAddMask P w s v
        = ((w.Write s (bytes "::add-mask::" ++ v ++ bytes "\n")).1,
           (w.Write s (bytes "::add-mask::" ++ v ++ bytes "\n")).2.2)
    ∧ FAddMask P recorder log v = (log ++ [bytes "::add-mask::" ++ v ++ bytes "\n"], none)
    ∧ AddMask P w s v
        = ((w.Write s (bytes "::add-mask::" ++ v ++ bytes "\n")).1,
           (w.Write s (bytes "::add-mask::" ++ v ++ bytes "\n")).2.2) := by
  refine ⟨?_, ?_, ?_⟩ <;>
    simp only [AddMask, FAddMask, fmt.Fprintf, Sprintf_addMask, recorder]

/-- C2: with `GITHUB_OUTPUT` naming a file and every file operation succeeding,
calling `SetOutput` on each pair of a list in order leaves the file holding its
former content (empty if it did not exist) followed by the records
`name=value\n` in call order, every call returns no error, and exactly one write is made
per call, each of one record. -/
theorem C2_SetOutput_appends_records {α : Type} (P : fmt.Printer α) (w : os.World)
    (pairs : List (GoString × GoString))
    (hfile : os.Getenv w.env (bytes "GITHUB_OUTPUT") ≠ []) (hok : w.noFaults) :
    (SetOutputAll P w pairs).1.files (os.Getenv w.env (bytes "GITHUB_OUTPUT"))
        = (if pairs = [] then w.files (os.Getenv w.env (bytes "GITHUB_OUTPUT"))
           else some ((w.files (os.Getenv w.env (bytes "GITHUB_OUTPUT"))).getD []
              ++ (pairs.map fun nv => nv.1 ++ [61] ++ nv.2 ++ [10]).flatten))
    ∧ (SetOutputAll P w pairs).2 = pairs.map (fun _ => none)
    ∧ ((SetOutputAll P w pairs).1.trace.filter
          fun e => match e with
            | os.Event.WriteString _ _ => true
            | _ => false)
        = (w.trace.filter fun e => match e with
            | os.Event.WriteString _ _ => true
            | _ => false)
          ++ pairs.map fun nv =>
              os.Event.WriteString (os.Getenv w.env (bytes "GITHUB_OUTPUT"))
                (nv.1 ++ [61] ++ nv.2 ++ [10]) :=
  SetOutputAll_ok P pairs w hfile hok

/-- C2 at `A=1` then `B=2` on a file that does not exist yet: it holds both
lines in that order. -/
theorem C2_SetOutput_appends_records_witness :
    (SetOutputAll examplePrinter exampleWorld
        [(bytes "A", bytes "1"), (bytes "B", bytes "2")]).1.files (bytes "out")
      = some (bytes "A=1\nB=2\n") := by
  have h := (C2_SetOutput_appends_records examplePrinter exampleWorld
    [(bytes "A", bytes "1"), (bytes "B", bytes "2")] (by decide)
    (by intro o ho; simp [exampleWorld] at ho)).1
  have e : os.Getenv exampleWorld.env (bytes "GITHUB_OUTPUT") = bytes "out" := by decide
  rw [e] at h
  rw [h]
  decide

/-- C4: when the path variable is unset or empty, `SetOutput` and `SetSummary`
return their configuration error for every argument and leave the world as it was
(no file opened, created or written); when it is non-empty, the error returned, if any,
is not a configuration error. -/
theorem C4_missing_variable_is_config_error {α : Type} (P : fmt.Printer α) (w : os.World)
    (name value m : GoString) :
    ((w.env (bytes "GITHUB_OUTPUT") = none ∨ w.env (bytes "GITHUB_OUTPUT") = some []) →
      SetOutput P w name value
        = (w, some (Error.errorsNew (bytes "GITHUB_OUTPUT env variable not specified"))))
    ∧ ((w.env (bytes "GITHUB_STEP_SUMMARY") = none
          ∨ w.env (bytes "GITHUB_STEP_SUMMARY") = some []) →
      SetSummary w m
        = (w, some (Error.errorsNew (bytes "GITHUB_STEP_SUMMARY env variable not specified"))))
    ∧ (os.Getenv w.env (bytes "GITHUB_OUTPUT") ≠ [] →
        ∀ msg, (SetOutput P w name value).2 ≠ some (Error.errorsNew msg))
    ∧ (os.Getenv w.env (bytes "GITHUB_STEP_SUMMARY") ≠ [] →
        ∀ msg, (SetSummary w m).2 ≠ some (Error.errorsNew msg)) := by
  refine ⟨?_, ?_, ?_, ?_⟩
  · intro h
    have : os.Getenv w.env (bytes "GITHUB_OUTPUT") = [] := by
      rcases h with h | h <;> simp [os.Getenv, h]
    simp [SetOutput, this]
  · intro h
    have : os.Getenv w.env (bytes "GITHUB_STEP_SUMMARY") = [] := by
      rcases h with h | h <;> simp [os.Getenv, h]
    simp [SetSummary, this]
  · intro h msg
    simp only [SetOutput, if_neg h]
    rcases appendToFile_error w (os.Getenv w.env (bytes "GITHUB_OUTPUT"))
      (outputRecord P name value) with e | ⟨n, e⟩ <;> simp [e]
  · intro h msg
    simp only [SetSummary, if_neg h]
    rcases appendToFile_error w (os.Getenv w.env (bytes "GITHUB_STEP_SUMMARY"))
      (summaryContent m) with e | ⟨n, e⟩ <;> simp [e]

/-- C4 in a world without variables: `SetOutput` fails and nothing is done. -/
theorem C4_missing_variable_is_config_error_witness :
    SetOutput examplePrinter emptyWorld (bytes "A") (bytes "1")
      = (emptyWorld, some (Error.errorsNew (bytes "GITHUB_OUTPUT env variable not specified"))) :=
  (C4_missing_variable_is_config_error examplePrinter emptyWorld (bytes "A") (bytes "1") []).1
    (Or.inl rfl)

/-- C5: the text `SetSummary` appends is `m` itself when `m` ends with a newline and
`m` followed by a newline otherwise (a newline for the empty string); it always ends
with a newline, and normalizing twice is the same as normalizing once. With
`GITHUB_STEP_SUMMARY` naming a file and every operation succeeding, that text is
what the one write of `SetSummary` appends to the file. -/
theorem C5_SetSummary_normalizes_newline (w : os.World) (m : GoString) :
    (m.getLast? = some 10 → summaryContent m = m)
    ∧ (m.getLast? ≠ some 10 → summaryContent m = m ++ [10])
    ∧ summaryContent [] = [10]
    ∧ (summaryContent m).getLast? = some 10
    ∧ summaryContent (summaryContent m) = summaryContent m
    ∧ (os.Getenv w.env (bytes "GITHUB_STEP_SUMMARY") ≠ [] → w.noFaults →
        (SetSummary w m).2 = none
        ∧ (SetSummary w m).1.files (os.Getenv w.env (bytes "GITHUB_STEP_SUMMARY"))
            = some ((w.files (os.Getenv w.env (bytes "GITHUB_STEP_SUMMARY"))).getD []
                ++ summaryContent m)
        ∧ (SetSummary w m).1.trace
            = w.trace ++ [os.Event.OpenFile (os.Getenv w.env (bytes "GITHUB_STEP_SUMMARY")),
                os.Event.WriteString (os.Getenv w.env (bytes "GITHUB_STEP_SUMMARY"))
                  (summaryContent m),
                os.Event.Close (os.Getenv w.env (bytes "GITHUB_STEP_SUMMARY"))]) := by
  have hyes : ∀ x : GoString, x.getLast? = some 10 → summaryContent x = x := by
    intro x h
    have := (HasSuffix_newline x).2 h
    simp only [summaryContent, this]
    simp
  have hno : m.getLast? ≠ some 10 → summaryContent m = m ++ [10] := by
    intro h
    have : strings.HasSuffix m (bytes "\n") = false := by
      cases hs : strings.HasSuffix m (bytes "\n")
      · rfl
      · exact absurd ((HasSuffix_newline m).1 hs) h
    simp only [summaryContent, this]
    simp [bytes]
  have hlast : (summaryContent m).getLast? = some 10 := by
    by_cases h : m.getLast? = some 10
    · rw [hyes m h]; exact h
    · rw [hno h]; simp
  have hidem : summaryContent (summaryContent m) = summaryContent m :=
    hyes (summaryContent m) hlast
  refine ⟨hyes m, hno, by decide, hlast, hidem, ?_⟩
  intro hfile hok
  obtain ⟨e1, _, _, e4, _, e6⟩ :=
    appendToFile_ok w (os.Getenv w.env (bytes "GITHUB_STEP_SUMMARY")) (summaryContent m) hok
  simp only [SetSummary, if_neg hfile]
  exact ⟨e1, e4, e6⟩

/-- C5 at `## Hi`: the file receives `## Hi` and a newline. -/
theorem C5_SetSummary_normalizes_newline_witness :
    (SetSummary exampleWorld (bytes "## Hi")).1.files (bytes "sum") = some (bytes "## Hi\n") := by
  have h := ((C5_SetSummary_normalizes_newline exampleWorld (bytes "## Hi")).2.2.2.2.2
    (by decide) (by intro o ho; simp [exampleWorld] at ho)).2.1
  have e : os.Getenv exampleWorld.env (bytes "GITHUB_STEP_SUMMARY") = bytes "sum" := by decide
  rw [e] at h
  rw [h]
  decide

/-- C7: in `appendToFile`, when the open fails its error is returned and neither a
write nor a close is made; when the open succeeds one write and then one close are
made whatever the write gives, and the result is the write error if the write failed
(the close error is dropped), otherwise the close error if the close failed, otherwise
no error. -/
theorem C7_appendToFile_error_policy (w : os.World) (file content : GoString) :
    (∀ f, w.faults.headD none = some f →
      (appendToFile w file content).2 = some (Error.os f.errno)
      ∧ (appendToFile w file content).1.trace = w.trace ++ [os.Event.OpenFile file]
      ∧ (appendToFile w file content).1.files = w.files)
    ∧ (w.faults.headD none = none →
      (appendToFile w file content).1.trace
          = w.trace ++ [os.Event.OpenFile file, os.Event.WriteString file content,
                        os.Event.Close file]
      ∧ (∀ fw, w.faults.tail.headD none = some fw →
          (appendToFile w file content).2 = some (Error.os fw.errno))
      ∧ (w.faults.tail.headD none = none →
          ∀ fc, w.faults.tail.tail.headD none = some fc →
            (appendToFile w file content).2 = some (Error.os fc.errno))
      ∧ (w.faults.tail.headD none = none → w.faults.tail.tail.headD none = none →
          (appendToFile w file content).2 = none)) := by
  rcases hf : w.faults with _ | ⟨_ | f1, _ | ⟨_ | f2, _ | ⟨_ | f3, r⟩⟩⟩ <;>
    simp [appendToFile, os.OpenFile, os.File.WriteString, os.File.Close, hf]

/-- C7 where the write fails with error 5 and the close with error 9: the write
error is returned. -/
theorem C7_appendToFile_error_policy_witness :
    (appendToFile faultyWorld (bytes "f") (bytes "abc")).2 = some (Error.os 5) :=
  ((C7_appendToFile_error_policy faultyWorld (bytes "f") (bytes "abc")).2 rfl).2.1
    { errno := 5, written := 2 } rfl


/-! ## The output record -/

theorem HasPrefix_singleton (c : Nat) (t : GoString) (b : Nat) :
    strings.HasPrefix (c :: t) [b] = decide (c = b) := by
  by_cases h : c = b <;> simp [strings.HasPrefix, h]

/-- The first instance of a byte that does not occur before it. -/
theorem Index_byte_append (b : Nat) (s t : GoString) (h : b ∉ s) :
    strings.Index (s ++ b :: t) [b] = some s.length := by
  induction s with
  | nil => simp [strings.Index, HasPrefix_singleton]
  | cons c s ih =>
    have hc : c ≠ b := fun e => h (by simp [e])
    have hs : b ∉ s := fun e => h (by simp [e])
    simp [strings.Index, HasPrefix_singleton, hc, ih hs]

/-- No instance of a byte that does not occur. -/
theorem Index_byte_none (b : Nat) (s : GoString) (h : b ∉ s) :
    strings.Index s [b] = none := by
  induction s with
  | nil => simp [strings.Index]
  | cons c s ih =>
    have hc : c ≠ b := fun e => h (by simp [e])
    have hs : b ∉ s := fun e => h (by simp [e])
    simp [strings.Index, HasPrefix_singleton, hc, ih hs]

theorem Cut_byte_append (b : Nat) (s t : GoString) (h : b ∉ s) :
    strings.Cut (s ++ b :: t) [b] = (s, t, true) := by
  simp [strings.Cut, Index_byte_append b s t h]

theorem Cut_byte_none (b : Nat) (s : GoString) (h : b ∉ s) :
    strings.Cut s [b] = (s, [], false) := by
  simp [strings.Cut, Index_byte_none b s h]

/-- The record of a name without `=` and newline and a value without newline
is one line that splits back into the name and the value. -/
theorem outputRecord_cut {α : Type} (P : fmt.Printer α) (name value : GoString)
    (h1 : 61 ∉ name) (h2 : 10 ∉ name) (h3 : 10 ∉ value) :
    (outputRecord P name value).count 10 = 1
    ∧ (outputRecord P name value).getLast? = some 10
    ∧ strings.Cut (outputRecord P name value).dropLast (bytes "=") = (name, value, true) := by
  rw [outputRecord_eq]
  refine ⟨?_, ?_, ?_⟩
  · simp [List.count_eq_zero_of_not_mem h2, List.count_eq_zero_of_not_mem h3]
  · rw [List.getLast?_append]; simp
  · have : (name ++ [61] ++ value ++ [10]).dropLast = name ++ 61 :: value := by
      rw [List.dropLast_append_of_ne_nil _ (by simp)]; simp
    rw [this]
    exact Cut_byte_append 61 name value h1

/-- C10: for a name containing neither `=` nor a newline and a value containing no
newline, the record `SetOutput` appends is one line (its only newline is its last
byte) which, cut at its first `=`, gives back the name and the value, so two such
pairs with the same record are equal; and for a value containing a newline one
call appends the same bytes as two calls. -/
theorem C10_output_record_roundtrip {α : Type} (P : fmt.Printer α) :
    (∀ name value : GoString, 61 ∉ name → 10 ∉ name → 10 ∉ value →
      (outputRecord P name value).count 10 = 1
      ∧ (outputRecord P name value).getLast? = some 10
      ∧ strings.Cut (outputRecord P name value).dropLast (bytes "=") = (name, value, true))
    ∧ (∀ n1 v1 n2 v2 : GoString, 61 ∉ n1 → 10 ∉ n1 → 10 ∉ v1 → 61 ∉ n2 → 10 ∉ n2 → 10 ∉ v2 →
        outputRecord P n1 v1 = outputRecord P n2 v2 → n1 = n2 ∧ v1 = v2)
    ∧ (10 ∈ bytes "1\nB=2"
        ∧ outputRecord P (bytes "A") (bytes "1\nB=2")
            = outputRecord P (bytes "A") (bytes "1") ++ outputRecord P (bytes "B") (bytes "2")
        ∧ (SetOutputAll P exampleWorld [(bytes "A", bytes "1\nB=2")]).1.files (bytes "out")
            = (SetOutputAll P exampleWorld
                [(bytes "A", bytes "1"), (bytes "B", bytes "2")]).1.files (bytes "out")) := by
  refine ⟨fun name value => outputRecord_cut P name value, ?_, ?_, ?_, ?_⟩
  · intro n1 v1 n2 v2 a1 a2 a3 b1 b2 b3 h
    have c1 := (outputRecord_cut P n1 v1 a1 a2 a3).2.2
    have c2 := (outputRecord_cut P n2 v2 b1 b2 b3).2.2
    rw [h, c2] at c1
    simp only [Prod.mk.injEq] at c1
    exact ⟨c1.1.symm, c1.2.1.symm⟩
  · decide
  · simp only [outputRecord_eq]; decide
  · have e : os.Getenv exampleWorld.env (bytes "GITHUB_OUTPUT") = bytes "out" := by decide
    have hw : exampleWorld.noFaults := by intro o ho; simp [exampleWorld] at ho
    have a := (SetOutputAll_ok P [(bytes "A", bytes "1\nB=2")] exampleWorld (by decide) hw).1
    have b := (SetOutputAll_ok P [(bytes "A", bytes "1"), (bytes "B", bytes "2")] exampleWorld
      (by decide) hw).1
    rw [e] at a b
    rw [a, b]
    decide

/-- C10 at the pair `A`, `1`: the record `A=1\n` cuts back into `A` and `1`. -/
theorem C10_output_record_roundtrip_witness :
    strings.Cut (outputRecord examplePrinter (bytes "A") (bytes "1")).dropLast (bytes "=")
      = (bytes "A", bytes "1", true) :=
  ((C10_output_record_roundtrip examplePrinter).1 (bytes "A") (bytes "1")
    (by decide) (by decide) (by decide)).2.2


/-! ## Formatting a well-formed format -/

theorem simpleFormat_flags (av : Bool) (flags : GoString) (h : ∀ c ∈ flags, fmt.isFlag c) :
    ∀ (rest : GoString) (fl : fmt.fmtFlags),
      fmt.simpleFormat av (flags ++ rest) fl
        = fmt.simpleFormat av rest (fmt.simpleFormat av flags fl).1 := by
  induction flags with
  | nil => intro rest fl; simp [fmt.simpleFormat]
  | cons c fs ih =>
    intro rest fl
    have hc := h c (by simp)
    have hfs : ∀ d ∈ fs, fmt.isFlag d := fun d hd => h d (by simp [hd])
    rcases hc with e | e | e | e | e <;> subst e <;>
      simp [fmt.simpleFormat, ih hfs]

theorem simpleFormat_fast (c : Nat) (rest : GoString) (fl : fmt.fmtFlags)
    (h1 : 97 ≤ c) (h2 : c ≤ 122) :
    fmt.simpleFormat true (c :: rest) fl = (fl, some c, rest) := by
  have a1 : c ≠ 35 := by omega
  have a2 : c ≠ 48 := by omega
  have a3 : c ≠ 43 := by omega
  have a4 : c ≠ 45 := by omega
  have a5 : c ≠ 32 := by omega
  simp [fmt.simpleFormat, a1, a2, a3, a4, a5, h1, h2]

theorem simpleFormat_slow (av : Bool) (c : Nat) (rest : GoString) (fl : fmt.fmtFlags)
    (h : ¬ fmt.isFlag c) (hv : ¬ (97 ≤ c ∧ c ≤ 122)) :
    fmt.simpleFormat av (c :: rest) fl = (fl, none, c :: rest) := by
  simp only [fmt.isFlag, not_or] at h
  obtain ⟨a1, a2, a3, a4, a5⟩ := h
  have : ¬ (97 ≤ c ∧ c ≤ 122 ∧ av = true) := fun x => hv ⟨x.1, x.2.1⟩
  simp [fmt.simpleFormat, a1, a2, a3, a4, a5, this]

theorem argNumber_skip (p : fmt.pp) (format : GoString) (n : Nat)
    (h : format.head? ≠ some 91) : fmt.argNumber p format n = (p, format, false) := by
  simp [fmt.argNumber, h]

/-- The loop of `parsenum` over digits followed by something that does not start
with a digit: it stops there, with the same number as on the digits alone. -/
theorem parsenumLoop_append (ds : GoString) (hd : ∀ c ∈ ds, fmt.isDigit c) (y : GoString)
    (hy : ∀ c, y.head? = some c → ¬ fmt.isDigit c) (hne : y ≠ []) :
    ∀ (num : Int) (isnum : Bool), 0 ≤ num → (num + 1) * 10 ^ ds.length ≤ 10000000 →
      fmt.parsenumLoop (ds ++ y) num isnum
        = ((fmt.parsenumLoop ds num isnum).1, (fmt.parsenumLoop ds num isnum).2.1, y) := by
  induction ds with
  | nil =>
    intro num isnum _ _
    cases y with
    | nil => exact absurd rfl hne
    | cons c r =>
      have : ¬ (48 ≤ c ∧ c ≤ 57) := hy c rfl
      simp [fmt.parsenumLoop, this]
  | cons d ds ih =>
    intro num isnum h0 hb
    have hdig : 48 ≤ d ∧ d ≤ 57 := hd d (by simp)
    have hds : ∀ c ∈ ds, fmt.isDigit c := fun c hc => hd c (by simp [hc])
    have hpos0 : (0 : Int) < 10 ^ ds.length := by positivity
    have hpos : (1 : Int) ≤ 10 ^ ds.length := by omega
    have hb' : (num + 1) * 10 * 10 ^ ds.length ≤ 10000000 := by
      have : (num + 1) * 10 ^ (d :: ds).length = (num + 1) * 10 * 10 ^ ds.length := by
        simp [pow_succ]; ring
      rw [this] at hb; exact hb
    have hsmall : num + 1 ≤ 1000000 := by nlinarith
    have hnt : fmt.tooLarge num = false := by
      simp [fmt.tooLarge]; constructor <;> omega
    have hstep : (num * 10 + ((d - 48 : Nat) : Int) + 1) * 10 ^ ds.length ≤ 10000000 := by
      have : ((d - 48 : Nat) : Int) ≤ 9 := by omega
      nlinarith
    have h0' : 0 ≤ num * 10 + ((d - 48 : Nat) : Int) := by positivity
    simp only [List.cons_append, fmt.parsenumLoop, hdig, and_self, if_true, hnt]
    simpa using ih hds (num * 10 + ((d - 48 : Nat) : Int)) true h0' hstep

theorem parsenum_append (ds : GoString) (hd : ∀ c ∈ ds, fmt.isDigit c) (hl : ds.length ≤ 6)
    (y : GoString) (hy : ∀ c, y.head? = some c → ¬ fmt.isDigit c) (hne : y ≠ []) :
    fmt.parsenum (ds ++ y) = ((fmt.parsenum ds).1, (fmt.parsenum ds).2.1, y) := by
  refine parsenumLoop_append ds hd y hy hne 0 false (le_refl _) ?_
  have : (10 : Int) ^ ds.length ≤ 10 ^ 6 := pow_le_pow_right₀ (by norm_num) hl
  norm_num at this ⊢
  omega


theorem width_digits {α : Type} (P : fmt.Printer α) (a : List (fmt.Value α)) (p : fmt.pp)
    (wd y : GoString) (hd : ∀ c ∈ wd, fmt.isDigit c) (hl : wd.length ≤ 6)
    (hy : ∀ c, y.head? = some c → ¬ fmt.isDigit c) (hne : y ≠ [])
    (hstar : y.head? ≠ some 42) (hp : p.afterIndex = false) :
    fmt.width P a p (wd ++ y) = ({ p with fmt := fmt.widthFlags p.fmt wd }, y) := by
  have hh : (wd ++ y).head? ≠ some 42 := by
    cases wd with
    | nil => simpa using hstar
    | cons d r =>
      have := hd d (by simp)
      simp only [fmt.isDigit] at this
      simp; omega
  simp only [fmt.width, if_neg hh, parsenum_append wd hd hl y hy hne, hp, fmt.widthFlags]
  simp

theorem precision_digits {α : Type} (P : fmt.Printer α) (a : List (fmt.Value α)) (p : fmt.pp)
    (pr y : GoString) (hpr : fmt.isPrec pr)
    (hy : ∀ c, y.head? = some c → ¬ fmt.isDigit c) (hne : y ≠ [])
    (hstar : y.head? ≠ some 42) (hdot : y.head? ≠ some 46) (hbr : y.head? ≠ some 91)
    (hp : p.afterIndex = false) :
    fmt.precision P a p (pr ++ y) = ({ p with fmt := fmt.precFlags p.fmt pr }, y) := by
  rcases hpr with e | ⟨ds, e, hd, hl⟩
  · subst e
    simp [fmt.precision, hdot, fmt.precFlags]
  · subst e
    have h1 : (ds ++ y).head? ≠ some 91 := by
      cases ds with
      | nil => simpa using hbr
      | cons d r =>
        have := hd d (by simp)
        simp only [fmt.isDigit] at this
        simp; omega
    have h2 : (ds ++ y).head? ≠ some 42 := by
      cases ds with
      | nil => simpa using hstar
      | cons d r =>
        have := hd d (by simp)
        simp only [fmt.isDigit] at this
        simp; omega
    simp only [fmt.precision, List.cons_append, List.head?_cons, if_true, List.drop_succ_cons,
      List.drop_zero, hp, Bool.false_eq_true, if_false, argNumber_skip p (ds ++ y) a.length h1,
      h2, parsenum_append ds hd hl y hy hne, fmt.precFlags]

/-- A directive `width precision letter` prints the current operand and leaves
what follows the letter. -/
theorem directive_verb {α : Type} (P : fmt.Printer α) (a : List (fmt.Value α)) (p : fmt.pp)
    (wd pr : GoString) (v : Nat) (x : GoString)
    (hw : fmt.isWidth wd) (hpr : fmt.isPrec pr) (hv : fmt.isLetter v)
    (hg : p.goodArgNum = true) (hk : p.argNum < a.length) :
    fmt.directive P a p (wd ++ (pr ++ v :: x))
      = (fmt.printOperand P a
          { p with fmt := fmt.precFlags (fmt.widthFlags p.fmt wd) pr, afterIndex := false } v,
         some x) := by
  obtain ⟨hd, hl, _⟩ := hw
  have vnd : ¬ fmt.isDigit v := by
    simp only [fmt.isLetter, fmt.isDigit] at *; omega
  have v1 : v ≠ 42 := by simp only [fmt.isLetter] at hv; omega
  have v2 : v ≠ 46 := by simp only [fmt.isLetter] at hv; omega
  have v3 : v ≠ 91 := by simp only [fmt.isLetter] at hv; omega
  have v4 : v ≠ 37 := by simp only [fmt.isLetter] at hv; omega
  have v5 : ¬ (v ≥ 128) := by simp only [fmt.isLetter] at hv; omega
  -- what follows the width does not start with a digit, `*` or `[`
  have y1 : ∀ c, (pr ++ v :: x).head? = some c → ¬ fmt.isDigit c := by
    intro c hc
    rcases hpr with e | ⟨ds, e, _, _⟩
    · subst e; simp at hc; subst hc; exact vnd
    · subst e; simp at hc; subst hc; simp [fmt.isDigit]
  have y2 : (pr ++ v :: x) ≠ [] := by simp
  have y3 : (pr ++ v :: x).head? ≠ some 42 := by
    rcases hpr with e | ⟨ds, e, _, _⟩ <;> subst e <;> simp [v1]
  have y4 : (wd ++ (pr ++ v :: x)).head? ≠ some 91 := by
    cases wd with
    | nil =>
      rcases hpr with e | ⟨ds, e, _, _⟩ <;> subst e <;> simp [v3]
    | cons d r =>
      have := hd d (by simp)
      simp only [fmt.isDigit] at this
      simp; omega
  have z1 : ∀ c, (v :: x).head? = some c → ¬ fmt.isDigit c := by
    intro c hc; simp at hc; subst hc; exact vnd
  simp only [fmt.directive, argNumber_skip p _ a.length y4]
  rw [width_digits P a _ wd _ hd hl y1 y2 y3 rfl]
  rw [precision_digits P a _ pr (v :: x) hpr z1 (by simp) (by simp [v1]) (by simp [v2])
    (by simp [v3]) rfl]
  simp [fmt.argNumberAgain, argNumber_skip _ (v :: x) a.length (by simp [v3]), fmt.readVerb,
    fmt.verbSwitch, v4, v5, hg, hk]

/-- The directive `%%` prints a percent sign and takes no operand. -/
theorem directive_percent {α : Type} (P : fmt.Printer α) (a : List (fmt.Value α)) (p : fmt.pp)
    (x : GoString) :
    ∃ q, fmt.directive P a p (37 :: x) = (q, some x) ∧ q.buf = p.buf ++ [37]
      ∧ q.argNum = p.argNum ∧ q.reordered = p.reordered := by
  simp [fmt.directive, fmt.argNumber, fmt.width, fmt.parsenum, fmt.parsenumLoop, fmt.precision,
    fmt.argNumberAgain, fmt.readVerb, fmt.verbSwitch]


theorem dropWhile_text (t : GoString) (h : ∀ c ∈ t, c ≠ 37) :
    t.dropWhile (· ≠ 37) = [] := by
  rw [List.dropWhile_eq_nil_iff]
  intro c hc
  simpa using h c hc

/-- A byte of plain text goes to the buffer. -/
theorem formatLoop_text {α : Type} (P : fmt.Printer α) (a : List (fmt.Value α)) (fuel : Nat)
    (c : Nat) (g : GoString) (p : fmt.pp) (hc : c ≠ 37) :
    fmt.formatLoop P a (fuel + 1) (c :: g) p
      = fmt.formatLoop P a (fuel + 1) g { p with buf := p.buf ++ [c] } := by
  simp only [fmt.formatLoop, List.dropWhile_cons, List.takeWhile_cons, ne_eq, hc,
    not_false_eq_true, decide_True, if_true, List.append_assoc, List.singleton_append]

theorem printOperand_props {α : Type} (P : fmt.Printer α) (a : List (fmt.Value α)) (p : fmt.pp)
    (v : Nat) :
    (fmt.printOperand P a p v).buf
        = p.buf ++ fmt.printArg P (fmt.verbFlags { fmt := p.fmt } v).fmt
            (a.getD p.argNum fmt.Value.nil) v
    ∧ (fmt.printOperand P a p v).argNum = p.argNum + 1
    ∧ (fmt.printOperand P a p v).reordered = p.reordered := by
  unfold fmt.printOperand fmt.verbFlags
  split_ifs <;> simp

/-- Formatting a well-formed format with one operand per directive: the bytes
appended to the buffer depend on the format and the operands only, text after
the format is appended unchanged, and every operand is used. -/
theorem wellFormed_run {α : Type} (P : fmt.Printer α) (a : List (fmt.Value α))
    (f : GoString) (n : Nat) (hf : fmt.WellFormed f n) :
    ∀ k, k + n = a.length → ∃ out : GoString, ∀ (p : fmt.pp) (t : GoString) (fuel : Nat),
      p.argNum = k → (∀ c ∈ t, c ≠ 37) → f.length + t.length < fuel →
      ∃ q, fmt.formatLoop P a fuel (f ++ t) p = some q ∧ q.buf = p.buf ++ out ++ t
        ∧ q.argNum = a.length ∧ q.reordered = p.reordered := by
  induction hf with
  | done =>
    intro k hk
    refine ⟨[], ?_⟩
    intro p t fuel hp ht hfuel
    obtain ⟨fuel, rfl⟩ : ∃ m, fuel = m + 1 := ⟨fuel - 1, by omega⟩
    refine ⟨{ p with goodArgNum := true, buf := p.buf ++ t }, ?_, by simp, by simp; omega, rfl⟩
    simp only [List.nil_append, fmt.formatLoop, dropWhile_text t ht]
  | text c f n hc _ ih =>
    intro k hk
    obtain ⟨out, ho⟩ := ih k hk
    refine ⟨c :: out, ?_⟩
    intro p t fuel hp ht hfuel
    obtain ⟨fuel, rfl⟩ : ∃ m, fuel = m + 1 := ⟨fuel - 1, by omega⟩
    obtain ⟨q, h1, h2, h3, h4⟩ := ho { p with buf := p.buf ++ [c] } t (fuel + 1) hp ht
      (by simp at hfuel ⊢; omega)
    refine ⟨q, ?_, ?_, h3, h4⟩
    · rw [List.cons_append, formatLoop_text P a fuel c _ p hc]; exact h1
    · rw [h2]; simp
  | percent f n _ ih =>
    intro k hk
    obtain ⟨out, ho⟩ := ih k hk
    refine ⟨37 :: out, ?_⟩
    intro p t fuel hp ht hfuel
    obtain ⟨fuel, rfl⟩ : ∃ m, fuel = m + 1 := ⟨fuel - 1, by omega⟩
    obtain ⟨q0, d1, d2, d3, d4⟩ := directive_percent P a
      { p with goodArgNum := true, buf := p.buf ++ [], fmt := fmt.clearflags p.fmt } (f ++ t)
    obtain ⟨q, h1, h2, h3, h4⟩ := ho q0 t fuel (by rw [d3]; exact hp) ht
      (by simp at hfuel ⊢; omega)
    refine ⟨q, ?_, ?_, h3, ?_⟩
    · have hs : fmt.simpleFormat (decide (p.argNum < a.length)) (37 :: (f ++ t))
          (fmt.clearflags p.fmt) = (fmt.clearflags p.fmt, none, 37 :: (f ++ t)) :=
        simpleFormat_slow _ 37 _ _ (by simp [fmt.isFlag]) (by omega)
      simp only [List.cons_append, fmt.formatLoop, List.dropWhile_cons, List.takeWhile_cons,
        ne_eq, not_true_eq_false, decide_False, if_false, hs, Bool.false_eq_true]
      simp only [List.append_nil] at d1 ⊢
      rw [d1]; exact h1
    · rw [h2, d2]; simp
    · rw [h4, d4]
  | verb flags wd pr v f n hfl hw hpr hv _ ih =>
    intro k hk
    obtain ⟨out, ho⟩ := ih (k + 1) (by omega)
    -- the flags of the directive and the path it takes
    by_cases hfast : wd = [] ∧ pr = [] ∧ 97 ≤ v ∧ v ≤ 122
    · obtain ⟨rfl, rfl, v1, v2⟩ := hfast
      refine ⟨fmt.printArg P (fmt.verbFlags { fmt := (fmt.simpleFormat true flags {}).1 } v).fmt
        (a.getD k fmt.Value.nil) v ++ out, ?_⟩
      intro p t fuel hp ht hfuel
      obtain ⟨fuel, rfl⟩ : ∃ m, fuel = m + 1 := ⟨fuel - 1, by omega⟩
      have hav : decide (p.argNum < a.length) = true := by simp; omega
      obtain ⟨b1, b2, b3⟩ := printOperand_props P a
        { p with goodArgNum := true, buf := p.buf ++ [],
                 fmt := (fmt.simpleFormat true flags {}).1 } v
      obtain ⟨q, h1, h2, h3, h4⟩ := ho _ t fuel (by rw [b2]; simp [hp]) ht
        (by simp at hfuel ⊢; omega)
      refine ⟨q, ?_, ?_, h3, ?_⟩
      · have hs : fmt.simpleFormat (decide (p.argNum < a.length)) (flags ++ (v :: (f ++ t)))
            (fmt.clearflags p.fmt) = ((fmt.simpleFormat true flags {}).1, some v, f ++ t) := by
          rw [hav, simpleFormat_flags true flags hfl, simpleFormat_fast v _ _ v1 v2]; rfl
        simp only [List.nil_append, List.cons_append, List.append_assoc, fmt.formatLoop,
          List.dropWhile_cons, List.takeWhile_cons, ne_eq, not_true_eq_false, decide_False,
          if_false, hs, Bool.false_eq_true]
        exact h1
      · rw [h2, b1]; simp [hp]
      · rw [h4, b3]
    · refine ⟨fmt.printArg P (fmt.verbFlags
          { fmt := fmt.precFlags (fmt.widthFlags (fmt.simpleFormat true flags {}).1 wd) pr } v).fmt
        (a.getD k fmt.Value.nil) v ++ out, ?_⟩
      intro p t fuel hp ht hfuel
      obtain ⟨fuel, rfl⟩ : ∃ m, fuel = m + 1 := ⟨fuel - 1, by omega⟩
      have hav : decide (p.argNum < a.length) = true := by simp; omega
      have hlt : p.argNum < a.length := by omega
      obtain ⟨b1, b2, b3⟩ := printOperand_props P a
        { p with goodArgNum := true, buf := p.buf ++ [],
                 fmt := fmt.precFlags (fmt.widthFlags (fmt.simpleFormat true flags {}).1 wd) pr,
                 afterIndex := false } v
      obtain ⟨q, h1, h2, h3, h4⟩ := ho _ t fuel (by rw [b2]; simp [hp]) ht
        (by simp at hfuel ⊢; omega)
      refine ⟨q, ?_, ?_, h3, ?_⟩
      · -- the byte after the flags is not a flag and does not take the fast path
        obtain ⟨c, r, hcr, hcf, hcv⟩ : ∃ c r, wd ++ (pr ++ v :: (f ++ t)) = c :: r
            ∧ ¬ fmt.isFlag c ∧ ¬ (97 ≤ c ∧ c ≤ 122) := by
          cases wd with
          | cons d r =>
            refine ⟨d, r ++ (pr ++ v :: (f ++ t)), rfl, ?_, ?_⟩
            · have h1 := hw.1 d (by simp)
              have h2 := hw.2.2
              simp only [fmt.isDigit] at h1
              simp only [List.head?_cons, ne_eq, Option.some.injEq] at h2
              simp only [fmt.isFlag]; omega
            · have h1 := hw.1 d (by simp)
              simp only [fmt.isDigit] at h1
              omega
          | nil =>
            rcases hpr with e | ⟨ds, e, _, _⟩
            · subst e
              refine ⟨v, f ++ t, rfl, ?_, ?_⟩
              · simp only [fmt.isLetter] at hv; simp only [fmt.isFlag]; omega
              · intro hh; exact hfast ⟨rfl, rfl, hh.1, hh.2⟩
            · subst e
              exact ⟨46, ds ++ v :: (f ++ t), rfl, by simp [fmt.isFlag], by omega⟩
        have hs : fmt.simpleFormat (decide (p.argNum < a.length))
            (flags ++ (wd ++ (pr ++ v :: (f ++ t)))) (fmt.clearflags p.fmt)
            = ((fmt.simpleFormat true flags {}).1, none, wd ++ (pr ++ v :: (f ++ t))) := by
          rw [hav, simpleFormat_flags true flags hfl, hcr, simpleFormat_slow true c r _ hcf hcv]
          rfl
        have hd := directive_verb P a
          { p with goodArgNum := true, buf := p.buf ++ [],
                   fmt := (fmt.simpleFormat true flags {}).1 } wd pr v (f ++ t) hw hpr hv rfl hlt
        simp only [List.cons_append, List.append_assoc, fmt.formatLoop,
          List.dropWhile_cons, List.takeWhile_cons, ne_eq, not_true_eq_false, decide_False,
          if_false, hs, Bool.false_eq_true]
        rw [hd]
        exact h1
      · rw [h2, b1]; simp [hp]
      · rw [h4, b3]


theorem formatLoop_leading_text {α : Type} (P : fmt.Printer α) (a : List (fmt.Value α))
    (fuel : Nat) (pre g : GoString) (h : ∀ c ∈ pre, c ≠ 37) :
    ∀ p : fmt.pp, fmt.formatLoop P a (fuel + 1) (pre ++ g) p
      = fmt.formatLoop P a (fuel + 1) g { p with buf := p.buf ++ pre } := by
  induction pre with
  | nil => intro p; simp
  | cons c r ih =>
    intro p
    rw [List.cons_append, formatLoop_text P a fuel c _ p (h c (by simp)),
      ih (fun d hd => h d (by simp [hd]))]
    simp

/-- Text without `%` before and after a well-formed format with one operand per
directive comes out unchanged around the formatted text. -/
theorem Sprintf_wellFormed {α : Type} (P : fmt.Printer α) (a : List (fmt.Value α))
    (f : GoString) (hf : fmt.WellFormed f a.length) (pre t : GoString)
    (hpre : ∀ c ∈ pre, c ≠ 37) (ht : ∀ c ∈ t, c ≠ 37) :
    fmt.Sprintf P (pre ++ f ++ t) a = pre ++ fmt.Sprintf P f a ++ t := by
  obtain ⟨out, ho⟩ := wellFormed_run P a f a.length hf 0 (by simp)
  have e1 : fmt.Sprintf P f a = out := by
    obtain ⟨q, h1, h2, h3, _⟩ := ho {} [] (f.length + 1) rfl (by simp) (by simp)
    rw [List.append_nil] at h1
    simp only [fmt.Sprintf, fmt.doPrintf, h1, h3, lt_self_iff_false, and_false, if_false, h2]
    simp
  have e2 : fmt.Sprintf P (pre ++ f ++ t) a = pre ++ out ++ t := by
    obtain ⟨q, h1, h2, h3, _⟩ := ho { buf := [] ++ pre } t ((pre ++ f ++ t).length + 1) rfl ht
      (by simp only [List.length_append]; omega)
    have hl := formatLoop_leading_text P a (pre ++ f ++ t).length pre (f ++ t) hpre {}
    rw [← List.append_assoc] at hl
    simp only [fmt.Sprintf, fmt.doPrintf, hl, h1, h3, lt_self_iff_false, and_false, if_false, h2]
    simp
  rw [e1, e2]


/-- C3, as amended: each of `FLogDebugf`, `FLogWarnf` and `FLogErrorf` makes one
`Write` call, with the text formatted from the prefix, the format and a newline
joined into one format; and for every format made of plain text, `%%` and
directives of the form `%`, flags, width, precision, verb letter, with exactly
one operand per directive, those bytes are the prefix, the text `Sprintf` gives
for the format and the operands, and one newline as the last byte. -/
theorem C3_log_writes_prefixed_line {σ α : Type} (P : fmt.Printer α) (w : Writer σ) (s : σ)
    (f : GoString) (a : List (fmt.Value α)) :
    (FLogDebugf P w s f a
        = ((w.Write s (fmt.Sprintf P (bytes "::debug::" ++ f ++ bytes "\n") a)).1,
           (w.Write s (fmt.Sprintf P (bytes "::debug::" ++ f ++ bytes "\n") a)).2.2)
      ∧ FLogWarnf P w s f a
        = ((w.Write s (fmt.Sprintf P (bytes "::warning::" ++ f ++ bytes "\n") a)).1,
           (w.Write s (fmt.Sprintf P (bytes "::warning::" ++ f ++ bytes "\n") a)).2.2)
      ∧ FLogErrorf P w s f a
        = ((w.Write s (fmt.Sprintf P (bytes "::error::" ++ f ++ bytes "\n") a)).1,
           (w.Write s (fmt.Sprintf P (bytes "::error::" ++ f ++ bytes "\n") a)).2.2))
    ∧ (fmt.WellFormed f a.length →
        FLogDebugf P w s f a
          = ((w.Write s (bytes "::debug::" ++ fmt.Sprintf P f a ++ bytes "\n")).1,
             (w.Write s (bytes "::debug::" ++ fmt.Sprintf P f a ++ bytes "\n")).2.2)
        ∧ FLogWarnf P w s f a
          = ((w.Write s (bytes "::warning::" ++ fmt.Sprintf P f a ++ bytes "\n")).1,
             (w.Write s (bytes "::warning::" ++ fmt.Sprintf P f a ++ bytes "\n")).2.2)
        ∧ FLogErrorf P w s f a
          = ((w.Write s (bytes "::error::" ++ fmt.Sprintf P f a ++ bytes "\n")).1,
             (w.Write s (bytes "::error::" ++ fmt.Sprintf P f a ++ bytes "\n")).2.2)) := by
  refine ⟨⟨rfl, rfl, rfl⟩, fun hf => ?_⟩
  have h1 := Sprintf_wellFormed P a f hf (bytes "::debug::") (bytes "\n") (by decide) (by decide)
  have h2 := Sprintf_wellFormed P a f hf (bytes "::warning::") (bytes "\n") (by decide)
    (by decide)
  have h3 := Sprintf_wellFormed P a f hf (bytes "::error::") (bytes "\n") (by decide) (by decide)
  simp only [FLogDebugf, FLogWarnf, FLogErrorf, fmt.Fprintf, h1, h2, h3, and_self]

/-- The format `%5d ok` is well formed for one operand. -/
theorem wellFormed_example : fmt.WellFormed (bytes "%5d ok") 1 :=
  fmt.WellFormed.verb [] [53] [] 100 (bytes " ok") 0 (by simp)
    ⟨by simp [fmt.isDigit], by simp, by simp⟩ (Or.inl rfl) (Or.inl (by decide))
    (fmt.WellFormed.text 32 _ 0 (by decide) (fmt.WellFormed.text 111 _ 0 (by decide)
      (fmt.WellFormed.text 107 _ 0 (by decide) fmt.WellFormed.done)))

/-- C3, as amended, at the format `%5d ok` with one operand: the sink receives
the prefix, the formatted text and a newline in one write. -/
theorem C3_log_writes_prefixed_line_witness :
    FLogDebugf examplePrinter recorder [] (bytes "%5d ok") [fmt.Value.other ()]
      = ([bytes "::debug::? ok\n"], none) := by
  have h := ((C3_log_writes_prefixed_line examplePrinter recorder [] (bytes "%5d ok")
    [fmt.Value.other ()]).2 wellFormed_example).1
  rw [h]
  decide

/-- C3 fails as stated. For the format `%` without operands the claim gives the
bytes `::debug::%!(NOVERB)` and a newline, and the code writes
`::debug::%!`, a newline and `(MISSING)`; for the format `hi` with one operand the
code writes the report of the extra operand after the newline. -/
theorem C3_counterexample :
    FLogDebugf examplePrinter recorder [] (bytes "%") []
        = ([bytes "::debug::%!\n(MISSING)"], none)
    ∧ bytes "::debug::" ++ fmt.Sprintf examplePrinter (bytes "%") [] ++ bytes "\n"
        = bytes "::debug::%!(NOVERB)\n"
    ∧ FLogErrorf examplePrinter recorder [] (bytes "hi") [fmt.Value.str (bytes "x")]
        = ([bytes "::error::hi\n%!(EXTRA string=x)"], none) := by
  decide


/-! ## The run URL: a server URL that does not parse -/

/-- The first instance of a byte in `pre ++ post` when it does not occur in `pre`. -/
theorem Index_byte_skip (b : Nat) (pre post : GoString) (h : b ∉ pre) :
    strings.Index (pre ++ post) [b] = (strings.Index post [b]).map (· + pre.length) := by
  induction pre with
  | nil => simp
  | cons c s ih =>
    have hc : c ≠ b := fun e => h (by simp [e])
    have hs : b ∉ s := fun e => h (by simp [e])
    simp only [List.cons_append, strings.Index, HasPrefix_singleton, hc, decide_False,
      Bool.false_eq_true, if_false]
    rw [show s.append post = s ++ post from rfl, ih hs]
    cases strings.Index post [b] <;> simp [Nat.add_assoc]

/-- What `strings.Cut` leaves before the first `#` starts with every prefix
that has no `#`. -/
theorem Cut_hash_start (pre post : GoString) (h : 35 ∉ pre) :
    ∃ r, (strings.Cut (pre ++ post) (bytes "#")).1 = pre ++ r := by
  have hb : bytes "#" = [35] := by decide
  rw [hb]
  simp only [strings.Cut, Index_byte_skip 35 pre post h]
  cases strings.Index post [35] with
  | none => exact ⟨post, rfl⟩
  | some i =>
    refine ⟨post.take i, ?_⟩
    simp [List.take_append_eq_append_take]

theorem parse_control (R : url.HostRules) (u : GoString)
    (h : url.stringContainsCTLByte u = true) :
    url.parse R u false = Except.error UrlErr.invalidControlCharacter := by
  simp [url.parse, h]

/-- C8, as amended: on every release of `net/url`, whenever `url.Parse` rejects the
value of `GITHUB_SERVER_URL`,
`GetRunURL` returns the empty string and an error wrapping the parser's error
behind `parsing server url: `, whatever the repository and the run id; this is so
for every value with a control character (a byte below 32, or 127) before its first
`#`; and a non-empty URL is returned only when the server URL parses. -/
theorem C8_unparseable_server_url (R : url.HostRules) (env : os.Environ) :
    (∀ err, url.Parse R (os.Getenv env (bytes "GITHUB_SERVER_URL")) = Except.error err →
      GetRunURL R env = ([], some (Error.wrap (bytes "parsing server url: ") err)))
    ∧ (∀ pre post : GoString, os.Getenv env (bytes "GITHUB_SERVER_URL") = pre ++ post →
        35 ∉ pre → (∃ b ∈ pre, b < 32 ∨ b = 127) →
        GetRunURL R env
          = ([], some (Error.wrap (bytes "parsing server url: ")
                (Error.url (bytes "parse")
                  (strings.Cut (os.Getenv env (bytes "GITHUB_SERVER_URL")) (bytes "#")).1
                  UrlErr.invalidControlCharacter))))
    ∧ ((GetRunURL R env).1 ≠ [] →
        ∃ u, url.Parse R (os.Getenv env (bytes "GITHUB_SERVER_URL")) = Except.ok u) := by
  refine ⟨?_, ?_, ?_⟩
  · intro err h
    simp [GetRunURL, h]
  · intro pre post hs hpre ⟨b, hb, hctl⟩
    obtain ⟨r, hr⟩ := Cut_hash_start pre post hpre
    have hc : url.stringContainsCTLByte (pre ++ r) = true := by
      simp only [url.stringContainsCTLByte, List.any_eq_true, decide_eq_true_eq]
      exact ⟨b, by simp [hb], hctl⟩
    simp only [GetRunURL, url.Parse, hs, hr, parse_control R _ hc]
  · intro h
    cases hp : url.Parse R (os.Getenv env (bytes "GITHUB_SERVER_URL")) with
    | ok u => exact ⟨u, rfl⟩
    | error e => simp [GetRunURL, hp] at h

/-- C8, as amended, at a server URL with a newline in the host name. -/
theorem C8_unparseable_server_url_witness :
    GetRunURL url.go122 (runEnv (bytes "https://git\nhub.com") (bytes "o/r") (bytes "42"))
      = ([], some (Error.wrap (bytes "parsing server url: ")
            (Error.url (bytes "parse") (bytes "https://git\nhub.com")
              UrlErr.invalidControlCharacter))) :=
  (C8_unparseable_server_url url.go122
      (runEnv (bytes "https://git\nhub.com") (bytes "o/r") (bytes "42"))).2.1
    (bytes "https://git\nhub.com") [] (by decide) (by decide) ⟨10, by decide, by decide⟩

/-- C8 fails as stated: the server URL `https://github.com#` followed by a newline
contains a control character, and `GetRunURL` returns a URL and no error. -/
theorem C8_counterexample :
    url.stringContainsCTLByte (bytes "https://github.com#\n") = true
    ∧ GetRunURL url.go122 (runEnv (bytes "https://github.com#\n") (bytes "o/r") (bytes "42"))
        = (bytes "https://github.com/o/r/actions/runs/42#%0A", none) := by
  decide


/-! ## The run URL: the path -/

theorem segments_eq (q : GoString) :
    segments q = q.takeWhile (· ≠ 47)
      :: (match q.dropWhile (· ≠ 47) with
          | [] => []
          | _ :: r => segments r) := by
  induction q with
  | nil => simp [segments]
  | cons c rest ih =>
    by_cases hc : c = 47
    · subst hc; simp [segments]
    · rw [segments, if_neg hc, ih]
      simp [hc]

theorem segments_ne_nil (q : GoString) : segments q ≠ [] := by
  rw [segments_eq]; simp

theorem segments_append_slash (x y : GoString) :
    segments (x ++ 47 :: y) = segments x ++ segments y := by
  induction x with
  | nil => simp [segments]
  | cons c rest ih =>
    by_cases hc : c = 47
    · subst hc; simp [segments, ih]
    · simp only [List.cons_append, segments, if_neg hc]
      rw [show rest.append (47 :: y) = rest ++ 47 :: y from rfl, ih]
      cases hs : segments rest with
      | nil => exact absurd hs (segments_ne_nil rest)
      | cons s ss => simp

theorem dropWhile_length_le (q : GoString) : (q.dropWhile (· ≠ 47)).length ≤ q.length :=
  List.IsSuffix.length_le (List.dropWhile_suffix _)

theorem dropWhile_slash (q : GoString) (d : Nat) (r : GoString)
    (h : q.dropWhile (· ≠ 47) = d :: r) : d = 47 := by
  induction q with
  | nil => simp at h
  | cons c rest ih =>
    by_cases hc : c = 47
    · rw [List.dropWhile_cons_of_neg (by simp [hc])] at h
      injection h with h1 _
      omega
    · rw [List.dropWhile_cons_of_pos (by simp [hc])] at h
      exact ih h

/-- The non-empty segments of a path that does not start with a slash: its first
element, then those of what follows the element. -/
theorem nonEmptySegments_cons (c : Nat) (rest : GoString) (hc : c ≠ 47) :
    nonEmptySegments (c :: rest)
      = (c :: rest.takeWhile (· ≠ 47)) :: nonEmptySegments (rest.dropWhile (· ≠ 47)) := by
  unfold nonEmptySegments
  rw [segments_eq (c :: rest)]
  simp only [List.takeWhile_cons, List.dropWhile_cons, ne_eq, hc, not_false_eq_true,
    decide_True, if_true]
  cases hd : rest.dropWhile (· ≠ 47) with
  | nil => simp [hd, segments]
  | cons d r =>
    have := dropWhile_slash rest d r hd
    subst this
    simp [hd, segments]

/-- The loop of `path.Clean` on an input without `.` and `..` elements: every
non-empty segment is a real path element. -/
theorem cleanLoop_noDots (rooted : Bool) :
    ∀ (fuel : Nat) (q out : GoString) (dotdot : Nat), q.length < fuel → noDotSegments q →
      path.cleanLoop rooted fuel q out dotdot
        = some (addSegments rooted out (nonEmptySegments q)) := by
  intro fuel
  induction fuel with
  | zero => intro q out dotdot h; omega
  | succ fuel ih =>
    intro q out dotdot hlen hq
    cases q with
    | nil => simp [path.cleanLoop, nonEmptySegments, segments, addSegments]
    | cons c rest =>
      by_cases hc : c = 47
      · subst hc
        have hrest : noDotSegments rest := by
          intro seg hs
          exact hq seg (by simp [segments, hs])
        rw [path.cleanLoop, if_pos rfl, ih rest out dotdot (by simp at hlen; omega) hrest]
        simp [nonEmptySegments, segments]
      · -- the first segment is a real path element
        have hseg := segments_eq (c :: rest)
        have htw : (c :: rest).takeWhile (· ≠ 47) = c :: rest.takeWhile (· ≠ 47) := by
          simp [hc]
        have hdw : (c :: rest).dropWhile (· ≠ 47) = rest.dropWhile (· ≠ 47) := by
          simp [hc]
        have hfirst := hq ((c :: rest).takeWhile (· ≠ 47)) (by rw [hseg]; simp)
        rw [htw] at hfirst
        have hdot : ¬ (c = 46 ∧ (rest = [] ∨ rest.head? = some 47)) := by
          rintro ⟨rfl, h | h⟩
          · subst h; exact hfirst.1 (by simp)
          · cases rest with
            | nil => simp at h
            | cons d r => simp at h; subst h; exact hfirst.1 (by simp)
        have hdotdot : ¬ (c = 46 ∧ rest.head? = some 46
            ∧ (rest.tail = [] ∨ rest.tail.head? = some 47)) := by
          rintro ⟨rfl, h1, h2⟩
          cases rest with
          | nil => simp at h1
          | cons d r =>
            simp at h1; subst h1
            rcases h2 with h | h
            · simp at h; subst h; exact hfirst.2 (by simp)
            · cases r with
              | nil => simp at h
              | cons e r' => simp at h; subst h; exact hfirst.2 (by simp)
        rw [path.cleanLoop, if_neg hc, if_neg hdot, if_neg hdotdot, hdw, htw]
        have hlen' : (rest.dropWhile (· ≠ 47)).length < fuel := by
          have := dropWhile_length_le rest
          simp at hlen; omega
        have hsub : noDotSegments (rest.dropWhile (· ≠ 47)) := by
          intro seg hs
          cases hd : rest.dropWhile (· ≠ 47) with
          | nil => rw [hd] at hs; simp [segments] at hs; subst hs; simp
          | cons d r =>
            have := dropWhile_slash rest d r hd
            subst this
            rw [hd] at hs
            simp only [segments, if_true, List.mem_cons] at hs
            rcases hs with h | h
            · subst h; simp
            · apply hq seg
              rw [hseg, hdw, hd]
              simp [h]
        rw [ih _ _ dotdot hlen' hsub, nonEmptySegments_cons c rest hc]
        rfl


theorem intercalate_cons (s : GoString) (ss : List GoString) :
    List.intercalate [47] (s :: ss) = s ++ (ss.map ([47] ++ ·)).flatten := by
  induction ss generalizing s with
  | nil => simp [List.intercalate]
  | cons t ts ih =>
    have := ih t
    simp only [List.intercalate, List.intersperse, List.flatten_cons] at this ⊢
    rw [this]
    simp

/-- Joining the segments of a path with slashes gives the path back. -/
theorem intercalate_segments (s : GoString) : List.intercalate [47] (segments s) = s := by
  induction s with
  | nil => simp [segments, List.intercalate]
  | cons c rest ih =>
    by_cases hc : c = 47
    · subst hc
      rw [segments, if_pos rfl, intercalate_cons]
      cases hs : segments rest with
      | nil => exact absurd hs (segments_ne_nil rest)
      | cons s ss =>
        rw [hs, intercalate_cons] at ih
        simpa using ih
    · rw [segments, if_neg hc]
      cases hs : segments rest with
      | nil => exact absurd hs (segments_ne_nil rest)
      | cons s ss =>
        rw [hs, intercalate_cons] at ih
        simpa [intercalate_cons] using ih

theorem segments_noSlash (s : GoString) (h : 47 ∉ s) : segments s = [s] := by
  induction s with
  | nil => simp [segments]
  | cons c rest ih =>
    have hc : c ≠ 47 := fun e => h (by simp [e])
    have hr : 47 ∉ rest := fun e => h (by simp [e])
    simp [segments, hc, ih hr]

theorem addSegments_more (rooted : Bool) (segs : List GoString) :
    ∀ out : GoString, (rooted = true ∧ out.length ≠ 1) ∨ (rooted = false ∧ out.length ≠ 0) →
      (∀ seg ∈ segs, seg ≠ []) →
      addSegments rooted out segs = out ++ (segs.map ([47] ++ ·)).flatten := by
  induction segs with
  | nil => intro out _ _; simp [addSegments]
  | cons s ss ih =>
    intro out ho hs
    have hne : s ≠ [] := hs s (by simp)
    have hlen : 0 < s.length := List.length_pos.mpr hne
    rw [addSegments, if_pos ho, ih _ ?_ (fun seg h => hs seg (by simp [h]))]
    · simp
    · cases rooted
      · right; simp
      · left; simp; omega

theorem addSegments_first (rooted : Bool) (segs : List GoString) (hs : ∀ seg ∈ segs, seg ≠ []) :
    addSegments rooted (if rooted then [47] else []) segs
      = (if rooted then [47] else []) ++ List.intercalate [47] segs := by
  cases segs with
  | nil => simp [addSegments, List.intercalate]
  | cons s ss =>
    have hne : s ≠ [] := hs s (by simp)
    have hlen : 0 < s.length := List.length_pos.mpr hne
    rw [addSegments, intercalate_cons]
    cases rooted
    · simp only [Bool.false_eq_true, if_false, false_and, List.length_nil, ne_eq,
        not_true_eq_false, and_false, or_self, List.nil_append]
      rw [addSegments_more false ss s (Or.inr ⟨rfl, by omega⟩) (fun seg h => hs seg (by simp [h]))]
    · simp only [if_true, List.length_singleton, ne_eq, not_true_eq_false, and_false,
        Bool.true_eq_false, false_and, or_self, if_false]
      rw [addSegments_more true ss _ (Or.inl ⟨rfl, by simp [hne]⟩)
        (fun seg h => hs seg (by simp [h]))]
      simp

theorem nonEmptySegments_ne (s : GoString) : ∀ seg ∈ nonEmptySegments s, seg ≠ [] := by
  intro seg h
  simp only [nonEmptySegments, List.mem_filter] at h
  simpa using h.2

/-- `path.Clean` on a non-empty path without `.` and `..` elements that has a
non-empty element: the non-empty elements joined by single slashes, after a slash
if the path starts with one. -/
theorem Clean_noDots (p : GoString) (hp : noDotSegments p) (hne : nonEmptySegments p ≠ []) :
    path.Clean p
      = (if p.head? = some 47 then [47] else [])
          ++ List.intercalate [47] (nonEmptySegments p) := by
  have hpne : p ≠ [] := by
    rintro rfl; exact hne (by simp [nonEmptySegments, segments])
  obtain ⟨s, ss, hss⟩ : ∃ s ss, nonEmptySegments p = s :: ss := by
    cases h : nonEmptySegments p with
    | nil => exact absurd h hne
    | cons s ss => exact ⟨s, ss, rfl⟩
  have hs : s ≠ [] := nonEmptySegments_ne p s (by rw [hss]; simp)
  have hout : ∀ pre : GoString, pre ++ List.intercalate [47] (s :: ss) ≠ [] := by
    intro pre h
    rw [intercalate_cons] at h
    simp at h
    exact hs h.2.1
  cases p with
  | nil => exact absurd rfl hpne
  | cons c rest =>
    by_cases hc : c = 47
    · subst hc
      have hrest : noDotSegments rest := fun seg h => hp seg (by simp [segments, h])
      have hnes : nonEmptySegments (47 :: rest) = nonEmptySegments rest := by
        simp [nonEmptySegments, segments]
      have h1 := cleanLoop_noDots true ((47 :: rest).length + 1) rest [47] 1
        (by simp only [List.length_cons]; omega) hrest
      have h2 := addSegments_first true (nonEmptySegments rest) (nonEmptySegments_ne rest)
      simp only [if_true] at h2
      rw [h2, ← hnes, hss] at h1
      simp only [path.Clean, path.cleanOut, List.head?_cons, if_true, List.drop_succ_cons,
        List.drop_zero, h1, hss]
      rw [if_neg (by simp), if_neg (hout [47])]
    · have h1 := cleanLoop_noDots false ((c :: rest).length + 1) (c :: rest) [] 0
        (by simp only [List.length_cons]; omega) hp
      have h2 := addSegments_first false (nonEmptySegments (c :: rest))
        (nonEmptySegments_ne (c :: rest))
      simp only [Bool.false_eq_true, if_false] at h2
      rw [h2, hss] at h1
      have hh : ¬ ((c :: rest).head? = some 47) := by simp [hc]
      simp only [path.Clean, path.cleanOut, if_neg hh, h1, hss]
      rw [if_neg (by simp), if_neg (hout [])]


theorem joinBuf_run (r i : GoString) :
    path.joinBuf [] [r, bytes "actions", bytes "runs", i]
      = (if r = [] then bytes "actions" else r ++ 47 :: bytes "actions")
          ++ 47 :: (bytes "runs" ++ 47 :: i) := by
  by_cases hr : r = []
  · subst hr; simp [path.joinBuf, bytes]
  · have : 0 < r.length := List.length_pos.mpr hr
    simp [path.joinBuf, bytes, hr, this]

theorem segments_joinBuf (r i : GoString) :
    segments (path.joinBuf [] [r, bytes "actions", bytes "runs", i])
      = (if r = [] then [] else segments r) ++ [bytes "actions", bytes "runs"] ++ segments i := by
  have hA : segments (bytes "actions") = [bytes "actions"] := by decide
  have hR : segments (bytes "runs") = [bytes "runs"] := by decide
  rw [joinBuf_run, segments_append_slash, segments_append_slash, hR]
  by_cases hr : r = []
  · simp [hr, hA]
  · simp [hr, hA, segments_append_slash]

/-- `path.Join` of the repository, `actions`, `runs` and the run id, when neither
has a `.` or `..` segment: the non-empty segments joined by single slashes, after
a slash if the repository starts with one. -/
theorem Join_run (r i : GoString) (hr : noDotSegments r) (hi : noDotSegments i) :
    path.Join [r, bytes "actions", bytes "runs", i]
      = (if r.head? = some 47 then [47] else [])
          ++ List.intercalate [47]
              (nonEmptySegments r ++ [bytes "actions", bytes "runs"] ++ nonEmptySegments i) := by
  have hseg := segments_joinBuf r i
  have hne : nonEmptySegments (path.joinBuf [] [r, bytes "actions", bytes "runs", i])
      = nonEmptySegments r ++ [bytes "actions", bytes "runs"] ++ nonEmptySegments i := by
    unfold nonEmptySegments
    rw [hseg]
    by_cases h : r = []
    · subst h; simp [segments, bytes]
    · simp [h, bytes]
  have hnd : noDotSegments (path.joinBuf [] [r, bytes "actions", bytes "runs", i]) := by
    intro seg hs
    rw [hseg] at hs
    simp only [List.mem_append, List.mem_cons, List.mem_singleton, List.not_mem_nil,
      or_false] at hs
    rcases hs with (hs | hs | hs) | hs
    · by_cases h : r = []
      · simp [h] at hs
      · simp only [h, if_false] at hs; exact hr seg hs
    · subst hs; decide
    · subst hs; decide
    · exact hi seg hs
  have hhead : (path.joinBuf [] [r, bytes "actions", bytes "runs", i]).head? = some 47
      ↔ r.head? = some 47 := by
    rw [joinBuf_run]
    cases r with
    | nil => simp [bytes]
    | cons c r' => simp
  have hsum : ¬ (([r, bytes "actions", bytes "runs", i].map List.length).sum = 0) := by
    simp [bytes]
  rw [path.Join, if_neg hsum, Clean_noDots _ hnd (by rw [hne]; simp), hne]
  simp only [hhead]


theorem intercalate_append (xs ys : List GoString) (hx : xs ≠ []) (hy : ys ≠ []) :
    List.intercalate [47] (xs ++ ys)
      = List.intercalate [47] xs ++ 47 :: List.intercalate [47] ys := by
  cases xs with
  | nil => exact absurd rfl hx
  | cons s ss =>
    cases ys with
    | nil => exact absurd rfl hy
    | cons t ts =>
      rw [List.cons_append, intercalate_cons, intercalate_cons, intercalate_cons]
      simp

/-- `path.Join` keeps the repository and the run id as they are when every
segment of theirs is non-empty and neither `.` nor `..`. -/
theorem Join_run_verbatim (r i : GoString)
    (hr : ∀ seg ∈ segments r, seg ≠ [] ∧ seg ≠ [46] ∧ seg ≠ [46, 46])
    (hi : ∀ seg ∈ segments i, seg ≠ [] ∧ seg ≠ [46] ∧ seg ≠ [46, 46]) :
    path.Join [r, bytes "actions", bytes "runs", i] = r ++ bytes "/actions/runs/" ++ i := by
  have e1 : nonEmptySegments r = segments r := by
    unfold nonEmptySegments
    rw [List.filter_eq_self]
    intro seg hs; simpa using (hr seg hs).1
  have e2 : nonEmptySegments i = segments i := by
    unfold nonEmptySegments
    rw [List.filter_eq_self]
    intro seg hs; simpa using (hi seg hs).1
  have hhead : r.head? ≠ some 47 := by
    intro h
    cases r with
    | nil => simp at h
    | cons c r' =>
      simp at h; subst h
      exact (hr [] (by simp [segments])).1 rfl
  rw [Join_run r i (fun seg hs => (hr seg hs).2) (fun seg hs => (hi seg hs).2), if_neg hhead,
    e1, e2, List.append_assoc,
    intercalate_append _ _ (segments_ne_nil r) (by simp),
    intercalate_append [bytes "actions", bytes "runs"] _ (by simp) (segments_ne_nil i),
    intercalate_segments, intercalate_segments]
  simp [List.intercalate, bytes]


/-! ## The run URL: the string returned -/

theorem setPath_fields (u u1 : url.URL) (p : GoString)
    (h : url.URL.setPath u p = Except.ok u1) : u1.Opaque = u.Opaque ∧ u1.Host = u.Host := by
  unfold url.URL.setPath at h
  cases hu : url.unescape p url.encoding.encodePath with
  | error e => rw [hu] at h; simp at h
  | ok q =>
    rw [hu] at h
    simp only [Except.ok.injEq] at h
    subst h
    exact ⟨rfl, rfl⟩

theorem setFragment_fields (u u1 : url.URL) (f : GoString)
    (h : url.URL.setFragment u f = Except.ok u1) : u1.Opaque = u.Opaque ∧ u1.Host = u.Host := by
  unfold url.URL.setFragment at h
  cases hu : url.unescape f url.encoding.encodeFragment with
  | error e => rw [hu] at h; simp at h
  | ok q =>
    rw [hu] at h
    simp only [Except.ok.injEq] at h
    subst h
    exact ⟨rfl, rfl⟩

theorem parseAuthorityPath_hier (R : url.HostRules) (u u1 : url.URL) (rest : GoString)
    (vr : Bool) (h : url.parseAuthorityPath R u rest vr = Except.ok u1) :
    u1.Opaque = u.Opaque := by
  unfold url.parseAuthorityPath at h
  by_cases h1 : (u.Scheme ≠ [] ∨ (vr = false ∧ strings.HasPrefix rest (bytes "///") = false))
      ∧ strings.HasPrefix rest (bytes "//") = true
  · rw [if_pos h1] at h
    cases ha : url.parseAuthority R
        (match strings.Index (rest.drop 2) (bytes "/") with
         | some i => (rest.drop 2).take i
         | none => rest.drop 2) with
    | error e => rw [ha] at h; simp at h
    | ok uh =>
      obtain ⟨user, host⟩ := uh
      rw [ha] at h
      exact (setPath_fields _ _ _ h).1
  · rw [if_neg h1] at h
    by_cases h2 : u.Scheme ≠ [] ∧ strings.HasPrefix rest (bytes "/") = true
    · rw [if_pos h2] at h; exact (setPath_fields _ _ _ h).1
    · rw [if_neg h2] at h; exact (setPath_fields _ _ _ h).1

theorem parseRest_hier (R : url.HostRules) (u u1 : url.URL) (rest : GoString) (vr : Bool)
    (hu : u.Opaque = [] ∧ u.Host = []) (h : url.parseRest R u rest vr = Except.ok u1) :
    u1.Opaque = [] ∨ u1.Host = [] := by
  unfold url.parseRest at h
  by_cases h1 : strings.HasPrefix rest (bytes "/") = false
  · rw [if_pos h1] at h
    by_cases h2 : u.Scheme ≠ []
    · rw [if_pos h2] at h
      simp only [Except.ok.injEq] at h
      subst h
      exact Or.inr hu.2
    · rw [if_neg h2] at h
      by_cases h3 : vr = true
      · rw [if_pos h3] at h; simp at h
      · rw [if_neg h3] at h
        by_cases h4 : strings.Contains (strings.Cut rest (bytes "/")).1 (bytes ":") = true
        · rw [if_pos h4] at h; simp at h
        · rw [if_neg h4] at h
          exact Or.inl ((parseAuthorityPath_hier R u u1 rest vr h).trans hu.1)
  · rw [if_neg h1] at h
    exact Or.inl ((parseAuthorityPath_hier R u u1 rest vr h).trans hu.1)

theorem parse_hier (R : url.HostRules) (s : GoString) (vr : Bool) (u1 : url.URL)
    (h : url.parse R s vr = Except.ok u1) : u1.Opaque = [] ∨ u1.Host = [] := by
  unfold url.parse at h
  by_cases h1 : url.stringContainsCTLByte s = true
  · rw [if_pos h1] at h; simp at h
  rw [if_neg h1] at h
  by_cases h2 : s = [] ∧ vr = true
  · rw [if_pos h2] at h; simp at h
  rw [if_neg h2] at h
  by_cases h3 : s = bytes "*"
  · rw [if_pos h3] at h
    simp only [Except.ok.injEq] at h
    subst h
    exact Or.inl rfl
  rw [if_neg h3] at h
  cases hg : url.getScheme s with
  | error e => rw [hg] at h; simp at h
  | ok sr =>
    obtain ⟨scheme, rest⟩ := sr
    rw [hg] at h
    simp only at h
    by_cases h4 : strings.HasSuffix rest (bytes "?") = true ∧ strings.Count rest 63 = 1
    · rw [if_pos h4] at h
      exact parseRest_hier R _ u1 _ vr ⟨rfl, rfl⟩ h
    · rw [if_neg h4] at h
      exact parseRest_hier R _ u1 _ vr ⟨rfl, rfl⟩ h

/-- A URL that parses with a host is not opaque. -/
theorem Parse_host_hier (R : url.HostRules) (s : GoString) (u : url.URL)
    (h : url.Parse R s = Except.ok u) (hh : u.Host ≠ []) : u.Opaque = [] := by
  unfold url.Parse at h
  cases hp : url.parse R (strings.Cut s (bytes "#")).1 false with
  | error e => rw [hp] at h; simp at h
  | ok u0 =>
    rw [hp] at h
    simp only at h
    have h0 := parse_hier R _ false u0 hp
    by_cases hf : (strings.Cut s (bytes "#")).2.1 = []
    · rw [if_pos hf] at h
      simp only [Except.ok.injEq] at h
      subst h
      rcases h0 with h0 | h0
      · exact h0
      · exact absurd h0 hh
    · rw [if_neg hf] at h
      cases hs : url.URL.setFragment u0 (strings.Cut s (bytes "#")).2.1 with
      | error e => rw [hs] at h; simp at h
      | ok u2 =>
        rw [hs] at h
        simp only [Except.ok.injEq] at h
        subst h
        obtain ⟨e1, e2⟩ := setFragment_fields _ _ _ hs
        rcases h0 with h0 | h0
        · rw [e1]; exact h0
        · rw [e2] at hh; exact absurd h0 hh

theorem escape_cons (c : Nat) (p : GoString) (mode : url.encoding) :
    url.escape (c :: p) mode = url.escape [c] mode ++ url.escape p mode := by
  simp [url.escape]

theorem escape_append (p q : GoString) (mode : url.encoding) :
    url.escape (p ++ q) mode = url.escape p mode ++ url.escape q mode := by
  simp [url.escape]

theorem escape_slash (p : GoString) :
    url.escape (47 :: p) url.encoding.encodePath = 47 :: url.escape p url.encoding.encodePath := by
  rw [escape_cons]
  have : url.escape [47] url.encoding.encodePath = [47] := by decide
  rw [this]; rfl

/-- The escaped form of a path starts with a slash only if the path does. -/
theorem escape_head (p : GoString) (h : p.head? ≠ some 47) :
    (url.escape p url.encoding.encodePath).head? ≠ some 47 := by
  cases p with
  | nil => simp [url.escape]
  | cons c r =>
    have hc : c ≠ 47 := by simpa using h
    rw [escape_cons]
    simp only [url.escape, List.flatMap_cons, List.flatMap_nil, List.append_nil]
    by_cases h1 : c = 32 ∧ url.encoding.encodePath = url.encoding.encodeQueryComponent
    · exact absurd h1.2 (by decide)
    · rw [if_neg h1]
      by_cases h2 : url.shouldEscape c url.encoding.encodePath = true
      · rw [if_pos h2]; simp
      · rw [if_neg h2]; simp [hc]

theorem escape_ne_nil (p : GoString) (mode : url.encoding) (h : p ≠ []) :
    url.escape p mode ≠ [] := by
  cases p with
  | nil => exact absurd rfl h
  | cons c r =>
    rw [escape_cons]
    simp only [url.escape, List.flatMap_cons, List.flatMap_nil, List.append_nil]
    by_cases h1 : c = 32 ∧ mode = url.encoding.encodeQueryComponent
    · rw [if_pos h1]; simp
    · rw [if_neg h1]
      by_cases h2 : url.shouldEscape c mode = true
      · rw [if_pos h2]; simp
      · rw [if_neg h2]; simp

/-- No segment of a path contains a slash. -/
theorem segments_no_slash (q : GoString) : ∀ seg ∈ segments q, 47 ∉ seg := by
  induction q with
  | nil => intro seg h; simp [segments] at h; subst h; simp
  | cons c rest ih =>
    intro seg h
    by_cases hc : c = 47
    · subst hc
      simp only [segments, if_true, List.mem_cons] at h
      rcases h with h | h
      · subst h; simp
      · exact ih seg h
    · rw [segments, if_neg hc] at h
      cases hs : segments rest with
      | nil => exact absurd hs (segments_ne_nil rest)
      | cons s ss =>
        rw [hs] at h ih
        simp only [List.mem_cons] at h
        rcases h with h | h
        · subst h
          have := ih s (by simp)
          simp only [List.mem_cons, not_or]
          exact ⟨fun e => hc e.symm, this⟩
        · exact ih seg (by simp [h])

theorem mem_intercalate (c : Nat) (s : GoString) (ss : List GoString) (hs : s ∈ ss)
    (hc : c ∈ s) : c ∈ List.intercalate [47] ss := by
  cases ss with
  | nil => simp at hs
  | cons t ts =>
    rw [intercalate_cons]
    simp only [List.mem_cons] at hs
    rcases hs with h | h
    · subst h; simp [hc]
    · simp only [List.mem_append, List.mem_flatten, List.mem_map]
      right
      exact ⟨[47] ++ s, ⟨s, h, rfl⟩, by simp [hc]⟩


theorem intercalate_run (r i : GoString) :
    List.intercalate [47] (segments r ++ [bytes "actions", bytes "runs"] ++ segments i)
      = r ++ bytes "/actions/runs/" ++ i := by
  rw [List.append_assoc, intercalate_append _ _ (segments_ne_nil r) (by simp),
    intercalate_append [bytes "actions", bytes "runs"] _ (by simp) (segments_ne_nil i),
    intercalate_segments, intercalate_segments]
  simp [List.intercalate, bytes]

/-- Segments that are not empty and hold no slash, joined by slashes: the result
is not empty and does not start with a slash. -/
theorem intercalate_head (segs : List GoString) (hne : segs ≠ [])
    (h : ∀ s ∈ segs, s ≠ [] ∧ 47 ∉ s) :
    List.intercalate [47] segs ≠ [] ∧ (List.intercalate [47] segs).head? ≠ some 47 := by
  cases segs with
  | nil => exact absurd rfl hne
  | cons s ss =>
    obtain ⟨h1, h2⟩ := h s (by simp)
    rw [intercalate_cons]
    cases s with
    | nil => exact absurd rfl h1
    | cons c t =>
      have hc : c ≠ 47 := fun e => h2 (by simp [e])
      simp [hc]

/-- The string form of a URL with a host, no opaque part and no raw path, whose
path is `p`. -/
theorem String_host (u : url.URL) (p : GoString) (hh : u.Host ≠ []) (ho : u.Opaque = [])
    (hr : u.RawPath = []) (hp : p ≠ []) (hstar : p ≠ bytes "*") :
    url.URL.String { u with Path := p }
      = (if u.Scheme ≠ [] then u.Scheme ++ bytes ":" else [])
        ++ bytes "//"
        ++ (match u.User with
            | some ui => ui.String ++ bytes "@"
            | none => [])
        ++ url.escape u.Host url.encoding.encodeHost
        ++ (if p.head? = some 47 then [] else bytes "/")
        ++ url.escape p url.encoding.encodePath
        ++ (if u.ForceQuery = true ∨ u.RawQuery ≠ [] then bytes "?" ++ u.RawQuery else [])
        ++ (if u.Fragment ≠ [] then bytes "#" ++ u.EscapedFragment else []) := by
  obtain ⟨sch, op, us, ho', pa, rp, oh, fq, rq, fr, rf⟩ := u
  simp only at hh ho hr
  subst ho
  subst hr
  have hep : ∀ us1 : Option url.Userinfo,
      url.URL.EscapedPath
          ({ Scheme := sch, Opaque := [], User := us1, Host := ho', Path := p, RawPath := [],
             OmitHost := oh, ForceQuery := fq, RawQuery := rq, Fragment := fr,
             RawFragment := rf } : url.URL)
        = url.escape p url.encoding.encodePath := by
    intro us1
    simp [url.URL.EscapedPath, hstar]
  have hene := escape_ne_nil p url.encoding.encodePath hp
  by_cases h47 : p.head? = some 47
  · have h1 : (url.escape p url.encoding.encodePath).head? = some 47 := by
      cases p with
      | nil => simp at h47
      | cons c t =>
        simp at h47; subst h47
        rw [escape_slash]; rfl
    cases us <;>
      simp [url.URL.String, url.URL.hierString, url.URL.authorityString, url.URL.EscapedFragment,
        hep, hene, h1, h47, hh, bytes]
  · have h1 := escape_head p h47
    cases us <;>
      simp [url.URL.String, url.URL.hierString, url.URL.authorityString, url.URL.EscapedFragment,
        hep, hene, h1, h47, hh, bytes]


/-! ## The run URL on a plain server URL -/

theorem LastIndex_byte_none (b : Nat) (s : GoString) (h : b ∉ s) :
    strings.LastIndex s [b] = none := by
  induction s with
  | nil => simp [strings.LastIndex]
  | cons c s ih =>
    have hc : c ≠ b := fun e => h (by simp [e])
    have hs : b ∉ s := fun e => h (by simp [e])
    simp [strings.LastIndex, HasPrefix_singleton, hc, ih hs]

theorem shouldEscape_hostByte (c : Nat) (h : isHostByte c) :
    url.shouldEscape c url.encoding.encodeHost = false := by
  rcases h with h | h | h | h | h | h | h
  · simp [url.shouldEscape, h]
  · simp [url.shouldEscape, h]
  · simp [url.shouldEscape, h]
  all_goals subst h; decide

theorem shouldEscape_pathByte (c : Nat) (h : isNameByte c ∨ c = 47) :
    url.shouldEscape c url.encoding.encodePath = false := by
  rcases h with (h | h | h | h | h) | h
  · simp [url.shouldEscape, h]
  · simp [url.shouldEscape, h]
  · simp [url.shouldEscape, h]
  all_goals subst h; decide

theorem escape_id (s : GoString) (mode : url.encoding)
    (h : ∀ c ∈ s, url.shouldEscape c mode = false) : url.escape s mode = s := by
  induction s with
  | nil => simp [url.escape]
  | cons c r ih =>
    have hc := h c (by simp)
    have hr := ih (fun d hd => h d (by simp [hd]))
    have h32 : c ≠ 32 := by
      rintro rfl
      cases mode <;> simp [url.shouldEscape, bytes] at hc
    simp only [url.escape, List.flatMap_cons] at hr ⊢
    rw [hr]
    simp [h32, hc]

theorem unescapeCheck_host (s : GoString) (h : ∀ c ∈ s, isHostByte c) :
    url.unescapeCheck url.encoding.encodeHost s 0 false = Except.ok (0, false) := by
  induction s with
  | nil => simp [url.unescapeCheck]
  | cons c r ih =>
    have hc := h c (by simp)
    have e := shouldEscape_hostByte c hc
    have h37 : c ≠ 37 := by simp only [isHostByte] at hc; omega
    have h43 : c ≠ 43 := by simp only [isHostByte] at hc; omega
    rw [url.unescapeCheck.eq_def]
    simp only [if_neg h37, if_neg h43, ih (fun d hd => h d (by simp [hd]))]
    simp [e]

theorem unescape_host (s : GoString) (h : ∀ c ∈ s, isHostByte c) :
    url.unescape s url.encoding.encodeHost = Except.ok s := by
  simp [url.unescape, unescapeCheck_host s h]

theorem parseHost_plain (R : url.HostRules) (host : GoString) (h : ∀ c ∈ host, isHostByte c) :
    url.parseHost R host = Except.ok host := by
  have hb : ¬ (91 ∈ host ∨ 93 ∈ host) := by
    rintro (hm | hm)
    · have := h 91 hm; simp [isHostByte] at this
    · have := h 93 hm; simp [isHostByte] at this
  have hcolon : (58 : Nat) ∉ host := by
    intro hm
    have := h 58 hm
    simp [isHostByte] at this
  have hc : ¬ (2 ≤ host.count 58) := by
    rw [List.count_eq_zero_of_not_mem hcolon]; omega
  have h2 : strings.LastIndex host (bytes ":") = none := by
    rw [show bytes ":" = [58] from by decide]
    exact LastIndex_byte_none 58 host hcolon
  simp only [url.parseHost, if_neg hb, if_neg hc, h2, unescape_host host h]

theorem parseAuthority_plain (R : url.HostRules) (host : GoString)
    (h : ∀ c ∈ host, isHostByte c) :
    url.parseAuthority R host = Except.ok (none, host) := by
  have h1 : strings.LastIndex host (bytes "@") = none := by
    rw [show bytes "@" = [64] from by decide]
    apply LastIndex_byte_none
    intro hm
    have := h 64 hm
    simp [isHostByte] at this
  simp only [url.parseAuthority, h1, parseHost_plain R host h]

theorem getSchemeLoop_run (raw rest : GoString) (s : GoString) (h : ∀ c ∈ s, isSchemeByte c) :
    ∀ i, 0 < i → url.getSchemeLoop raw (s ++ 58 :: rest) i = Except.ok (raw.take (i + s.length), rest) := by
  induction s with
  | nil => intro i hi; simp [url.getSchemeLoop]; omega
  | cons c r ih =>
    intro i hi
    have hc := h c (by simp)
    have hr := ih (fun d hd => h d (by simp [hd])) (i + 1) (by omega)
    have e : i + 1 + r.length = i + (c :: r).length := by simp; omega
    rw [e] at hr
    rcases hc with hc | hc
    · simp only [List.cons_append, url.getSchemeLoop, hc, and_self, true_or, if_true]
      exact hr
    · have h1 : ¬ ((97 ≤ c ∧ c ≤ 122) ∨ (65 ≤ c ∧ c ≤ 90)) := by omega
      have h2 : (48 ≤ c ∧ c ≤ 57) ∨ c = 43 ∨ c = 45 ∨ c = 46 := hc
      have h3 : i ≠ 0 := by omega
      simp only [List.cons_append, url.getSchemeLoop, if_neg h1, if_pos h2, if_neg h3]
      exact hr

theorem getScheme_run (scheme rest : GoString) (h : isLowerScheme scheme) :
    url.getScheme (scheme ++ 58 :: rest) = Except.ok (scheme, rest) := by
  obtain ⟨⟨c, hc, hl⟩, hall⟩ := h
  cases scheme with
  | nil => simp at hc
  | cons d s =>
    simp at hc; subst hc
    have := getSchemeLoop_run (d :: s ++ 58 :: rest) rest s (fun x hx => hall x (by simp [hx]))
      1 (by omega)
    simp only [url.getScheme, List.cons_append, url.getSchemeLoop, hl, and_self, true_or,
      if_true, zero_add]
    rw [List.cons_append] at this
    refine this.trans ?_
    simp [Nat.add_comm]

theorem ToLower_lower (s : GoString) (h : ∀ c ∈ s, isSchemeByte c) : strings.ToLower s = s := by
  unfold strings.ToLower
  conv_rhs => rw [← List.map_id s]
  apply List.map_congr_left
  intro c hc
  have := h c hc
  have : ¬ (65 ≤ c ∧ c ≤ 90) := by simp only [isSchemeByte] at this; omega
  simp [this]


/-- C9, as amended: on every release of `net/url`, for every server URL that parses
into a URL with a non-empty host and no raw path, and every repository and run id
without a `.` or `..` segment, `GetRunURL` returns no error and the string made of
the scheme with its colon, `//`, the user information with `@` if there is one, the
escaped host, a slash, the percent-escaped path, and the query and fragment of
the server URL; the path is the non-empty segments of the repository, `actions`,
`runs` and the non-empty segments of the run id joined by single slashes. When
moreover no segment of the repository and the run id is empty and none of their
bytes is one the URL printer escapes in a path, the path text is the repository,
`/actions/runs/` and the run id, byte for byte. -/
theorem C9_run_path_segments (R : url.HostRules) (env : os.Environ) (u : url.URL)
    (hparse : url.Parse R (os.Getenv env (bytes "GITHUB_SERVER_URL")) = Except.ok u)
    (hhost : u.Host ≠ []) (hraw : u.RawPath = [])
    (hr : noDotSegments (os.Getenv env (bytes "GITHUB_REPOSITORY")))
    (hi : noDotSegments (os.Getenv env (bytes "GITHUB_RUN_ID"))) :
    GetRunURL R env
        = ((if u.Scheme ≠ [] then u.Scheme ++ bytes ":" else [])
            ++ bytes "//"
            ++ (match u.User with
                | some ui => ui.String ++ bytes "@"
                | none => [])
            ++ url.escape u.Host url.encoding.encodeHost
            ++ bytes "/"
            ++ url.escape
                (List.intercalate [47]
                  (nonEmptySegments (os.Getenv env (bytes "GITHUB_REPOSITORY"))
                    ++ [bytes "actions", bytes "runs"]
                    ++ nonEmptySegments (os.Getenv env (bytes "GITHUB_RUN_ID"))))
                url.encoding.encodePath
            ++ (if u.ForceQuery = true ∨ u.RawQuery ≠ [] then bytes "?" ++ u.RawQuery else [])
            ++ (if u.Fragment ≠ [] then bytes "#" ++ u.EscapedFragment else []), none)
    ∧ ((∀ seg ∈ segments (os.Getenv env (bytes "GITHUB_REPOSITORY")), seg ≠ []) →
        (∀ seg ∈ segments (os.Getenv env (bytes "GITHUB_RUN_ID")), seg ≠ []) →
        (∀ c ∈ os.Getenv env (bytes "GITHUB_REPOSITORY") ++ os.Getenv env (bytes "GITHUB_RUN_ID"),
          url.shouldEscape c url.encoding.encodePath = false) →
        GetRunURL R env
          = ((if u.Scheme ≠ [] then u.Scheme ++ bytes ":" else [])
              ++ bytes "//"
              ++ (match u.User with
                  | some ui => ui.String ++ bytes "@"
                  | none => [])
              ++ url.escape u.Host url.encoding.encodeHost
              ++ bytes "/"
              ++ (os.Getenv env (bytes "GITHUB_REPOSITORY") ++ bytes "/actions/runs/"
                    ++ os.Getenv env (bytes "GITHUB_RUN_ID"))
              ++ (if u.ForceQuery = true ∨ u.RawQuery ≠ [] then bytes "?" ++ u.RawQuery
                  else [])
              ++ (if u.Fragment ≠ [] then bytes "#" ++ u.EscapedFragment else []), none)) := by
  generalize hrv : os.Getenv env (bytes "GITHUB_REPOSITORY") = r at hr ⊢
  generalize hiv : os.Getenv env (bytes "GITHUB_RUN_ID") = i at hi ⊢
  have ho := Parse_host_hier R _ u hparse hhost
  -- the segments of the path
  have hsegs : ∀ s ∈ nonEmptySegments r ++ [bytes "actions", bytes "runs"] ++ nonEmptySegments i,
      s ≠ [] ∧ 47 ∉ s := by
    intro s hs
    simp only [List.mem_append, List.mem_cons, List.mem_singleton, List.not_mem_nil,
      or_false] at hs
    rcases hs with (hs | hs | hs) | hs
    · exact ⟨nonEmptySegments_ne r s hs,
        segments_no_slash r s (List.mem_of_mem_filter hs)⟩
    · subst hs; decide
    · subst hs; decide
    · exact ⟨nonEmptySegments_ne i s hs,
        segments_no_slash i s (List.mem_of_mem_filter hs)⟩
  obtain ⟨hI1, hI2⟩ := intercalate_head _ (by simp) hsegs
  have ha : (97 : Nat) ∈ List.intercalate [47]
      (nonEmptySegments r ++ [bytes "actions", bytes "runs"] ++ nonEmptySegments i) :=
    mem_intercalate 97 (bytes "actions") _ (by simp) (by decide)
  have hjoin := Join_run r i hr hi
  -- the escaped path after the slash that follows the host
  have hpath : ∀ P : GoString,
      P = (if r.head? = some 47 then [47] else [])
            ++ List.intercalate [47]
                (nonEmptySegments r ++ [bytes "actions", bytes "runs"] ++ nonEmptySegments i) →
      P ≠ [] ∧ P ≠ bytes "*"
      ∧ (if P.head? = some 47 then [] else bytes "/") ++ url.escape P url.encoding.encodePath
        = bytes "/" ++ url.escape (List.intercalate [47]
            (nonEmptySegments r ++ [bytes "actions", bytes "runs"] ++ nonEmptySegments i))
            url.encoding.encodePath := by
    intro P hP
    have hmem : (97 : Nat) ∈ P := by rw [hP]; exact List.mem_append_right _ ha
    refine ⟨?_, ?_, ?_⟩
    · rintro rfl; simp at hmem
    · rintro rfl; revert hmem; decide
    · by_cases h47 : r.head? = some 47
      · rw [if_pos h47] at hP
        subst hP
        simp only [List.singleton_append, List.head?_cons, if_true, List.nil_append,
          escape_slash]
        rfl
      · rw [if_neg h47, List.nil_append] at hP
        subst hP
        rw [if_neg hI2]
  obtain ⟨hP1, hP2, hP3⟩ := hpath _ rfl
  have hmain : GetRunURL R env
      = ((if u.Scheme ≠ [] then u.Scheme ++ bytes ":" else [])
          ++ bytes "//"
          ++ (match u.User with
              | some ui => ui.String ++ bytes "@"
              | none => [])
          ++ url.escape u.Host url.encoding.encodeHost
          ++ bytes "/"
          ++ url.escape
              (List.intercalate [47]
                (nonEmptySegments r ++ [bytes "actions", bytes "runs"] ++ nonEmptySegments i))
              url.encoding.encodePath
          ++ (if u.ForceQuery = true ∨ u.RawQuery ≠ [] then bytes "?" ++ u.RawQuery else [])
          ++ (if u.Fragment ≠ [] then bytes "#" ++ u.EscapedFragment else []), none) := by
    simp only [GetRunURL, hparse, hrv, hiv, hjoin]
    rw [String_host u _ hhost ho hraw hP1 hP2, List.append_assoc _ _ (url.escape _ _), hP3,
      ← List.append_assoc]
  refine ⟨hmain, ?_⟩
  intro h1 h2 h3
  have e1 : nonEmptySegments r = segments r := by
    unfold nonEmptySegments
    rw [List.filter_eq_self]
    intro seg hs; simpa using h1 seg hs
  have e2 : nonEmptySegments i = segments i := by
    unfold nonEmptySegments
    rw [List.filter_eq_self]
    intro seg hs; simpa using h2 seg hs
  have hesc : url.escape (r ++ bytes "/actions/runs/" ++ i) url.encoding.encodePath
      = r ++ bytes "/actions/runs/" ++ i := by
    apply escape_id
    intro c hc
    simp only [List.mem_append] at hc
    rcases hc with (hc | hc) | hc
    · exact h3 c (by simp [hc])
    · revert c; decide
    · exact h3 c (by simp [hc])
  rw [hmain, e1, e2, intercalate_run, hesc]

/-- C9, as amended, at the repository `o//r/` on `https://github.com`: the empty
segments are dropped. -/
theorem C9_run_path_segments_witness :
    GetRunURL url.go122 (runEnv (bytes "https://github.com") (bytes "o//r/") (bytes "42"))
      = (bytes "https://github.com/o/r/actions/runs/42", none) := by
  have h := (C9_run_path_segments url.go122
    (runEnv (bytes "https://github.com") (bytes "o//r/") (bytes "42"))
    { Scheme := bytes "https", Host := bytes "github.com" } rfl (by decide) rfl
    (by unfold noDotSegments; decide) (by unfold noDotSegments; decide)).1
  rw [h]
  decide

/-- C9 fails as stated: with the repository `o/../r` the `..` segment and the
segment before it are removed, so the repository does not appear in the result;
with the repository `a b` the space is written as `%20`; and with the server URL
`mailto:x@y`, which parses, the URL returned has no path at all. None of the three
server URLs has a bracket or a colon in its host, so the result is the same on
every release of `net/url`. -/
theorem C9_counterexample :
    GetRunURL url.go122 (runEnv (bytes "https://github.com") (bytes "o/../r") (bytes "42"))
        = (bytes "https://github.com/r/actions/runs/42", none)
    ∧ ¬ (bytes "o/../r" <:+: bytes "https://github.com/r/actions/runs/42")
    ∧ GetRunURL url.go122 (runEnv (bytes "https://github.com") (bytes "a b") (bytes "42"))
        = (bytes "https://github.com/a%20b/actions/runs/42", none)
    ∧ GetRunURL url.go122 (runEnv (bytes "mailto:x@y") (bytes "o/r") (bytes "42"))
        = (bytes "mailto:x@y", none) := by
  decide


/-- With the rules of Go 1.22, `parseHost` is the `parseHost` of Go 1.22 on every
host. -/
theorem parseHost_go122 (host : GoString) :
    url.parseHost url.go122 host = url.parseHostGo122 host := by
  unfold url.parseHost
  by_cases h1 : 91 ∈ host ∨ 93 ∈ host
  · rw [if_pos h1]; rfl
  · rw [if_neg h1]
    by_cases h2 : 2 ≤ host.count 58
    · rw [if_pos h2]; rfl
    · rw [if_neg h2]
      have hp : strings.HasPrefix host (bytes "[") = false := by
        cases host with
        | nil => rfl
        | cons c t =>
          have hc : c ≠ 91 := by
            rintro rfl; exact h1 (Or.inl (List.mem_cons_self _ _))
          simp [strings.HasPrefix, bytes, hc]
      unfold url.parseHostGo122
      rw [hp]
      rfl


theorem schemeByte_facts (c : Nat) (h : isSchemeByte c) :
    c ≠ 35 ∧ c ≠ 63 ∧ c ≠ 47 ∧ ¬ (c < 32 ∨ c = 127) ∧ c ≠ 58 := by
  simp only [isSchemeByte] at h; omega

theorem hostByte_facts (c : Nat) (h : isHostByte c) :
    c ≠ 35 ∧ c ≠ 63 ∧ c ≠ 47 ∧ ¬ (c < 32 ∨ c = 127) ∧ c ≠ 58 := by
  simp only [isHostByte] at h; omega

/-- A server URL `scheme://host` with a lower-case scheme and a plain host parses
into that scheme and host, and nothing else. -/
theorem Parse_plain (R : url.HostRules) (scheme host : GoString) (hs : isLowerScheme scheme)
    (hh : isPlainHost host) :
    url.Parse R (scheme ++ bytes "://" ++ host)
      = Except.ok { Scheme := scheme, Host := host } := by
  have hsrv : scheme ++ bytes "://" ++ host = scheme ++ 58 :: 47 :: 47 :: host := by
    simp [bytes]
  rw [hsrv]
  -- no byte of the server URL is `#`, `?` or a control character
  have hall : ∀ c ∈ scheme ++ 58 :: 47 :: 47 :: host,
      c ≠ 35 ∧ c ≠ 63 ∧ ¬ (c < 32 ∨ c = 127) := by
    intro c hc
    simp only [List.mem_append, List.mem_cons] at hc
    rcases hc with h | h | h | h | h
    · have := schemeByte_facts c (hs.2 c h); omega
    · omega
    · omega
    · omega
    · have := hostByte_facts c (hh.2 c h); omega
  have hcut : strings.Cut (scheme ++ 58 :: 47 :: 47 :: host) (bytes "#")
      = (scheme ++ 58 :: 47 :: 47 :: host, [], false) :=
    Cut_byte_none 35 _ (fun hm => (hall 35 hm).1 rfl)
  have hctl : url.stringContainsCTLByte (scheme ++ 58 :: 47 :: 47 :: host) = false := by
    rw [url.stringContainsCTLByte, List.any_eq_false]
    intro c hc
    simpa using (hall c hc).2.2
  obtain ⟨⟨c0, hc0, hl0⟩, hsall⟩ := hs
  have hne : scheme ++ 58 :: 47 :: 47 :: host ≠ [] := by simp
  have hstar : scheme ++ 58 :: 47 :: 47 :: host ≠ bytes "*" := by
    cases scheme with
    | nil => simp at hc0
    | cons d s =>
      simp at hc0; subst hc0
      simp [bytes]
  have hsne : scheme ≠ [] := by
    rintro rfl; simp at hc0
  have hgs := getScheme_run scheme (47 :: 47 :: host) ⟨⟨c0, hc0, hl0⟩, hsall⟩
  have hq : (63 : Nat) ∉ (47 :: 47 :: host) := by
    intro hm
    simp only [List.mem_cons] at hm
    rcases hm with h | h | h
    · omega
    · omega
    · exact (hostByte_facts 63 (hh.2 63 h)).2.1 rfl
  have hcount : strings.Count (47 :: 47 :: host) 63 = 0 := by
    rw [strings.Count]; exact List.count_eq_zero_of_not_mem hq
  have hcutq : strings.Cut (47 :: 47 :: host) (bytes "?") = (47 :: 47 :: host, [], false) :=
    Cut_byte_none 63 _ hq
  have hp1 : strings.HasPrefix (47 :: 47 :: host) (bytes "/") = true := by
    rw [show bytes "/" = [47] from by decide, HasPrefix_singleton]; simp
  have hp2 : strings.HasPrefix (47 :: 47 :: host) (bytes "//") = true := by
    simp [strings.HasPrefix, bytes]
  have hidx : strings.Index host (bytes "/") = none :=
    Index_byte_none 47 host (fun hm => (hostByte_facts 47 (hh.2 47 hm)).2.2.1 rfl)
  have hsp : ∀ u : url.URL, url.URL.setPath u [] = Except.ok { u with Path := [], RawPath := [] } := by
    intro u
    simp [url.URL.setPath, url.unescape, url.unescapeCheck, url.escape]
  simp only [url.Parse, hcut, url.parse, hctl, Bool.false_eq_true, if_false, hne, false_and,
    hstar, hgs, hcount, zero_ne_one, and_false, hcutq, url.parseRest, hp1, Bool.true_eq_false,
    url.parseAuthorityPath, ToLower_lower scheme hsall, ne_eq, hsne, not_false_eq_true, true_or,
    hp2, and_self, if_true, List.drop_succ_cons, List.drop_zero, hidx,
    parseAuthority_plain R host hh.2, hsp]


theorem nameByte_facts (c : Nat) (h : isNameByte c) : c ≠ 47 ∧ c ≠ 46 ∧ c ≠ 42 := by
  simp only [isNameByte] at h; omega

/-- The segments of a name: the name itself, which is neither empty nor a dot
element. -/
theorem segments_name (s : GoString) (h : isName s) :
    segments s = [s] ∧ s ≠ [] ∧ s ≠ [46] ∧ s ≠ [46, 46] := by
  refine ⟨segments_noSlash s (fun hm => (nameByte_facts 47 (h.2 47 hm)).1 rfl), h.1, ?_, ?_⟩
  · rintro rfl; exact (nameByte_facts 46 (h.2 46 (by simp))).2.1 rfl
  · rintro rfl; exact (nameByte_facts 46 (h.2 46 (by simp))).2.1 rfl

/-- The string form of a URL that has only a scheme, a plain host and a path of
name bytes and slashes that does not start with a slash. -/
theorem String_plain (scheme host p : GoString) (hs : scheme ≠ [])
    (hh : isPlainHost host) (hp : p ≠ []) (hhead : p.head? ≠ some 47)
    (hall : ∀ c ∈ p, isNameByte c ∨ c = 47) :
    url.URL.String { Scheme := scheme, Host := host, Path := p }
      = scheme ++ bytes "://" ++ host ++ bytes "/" ++ p := by
  have e1 : url.escape host url.encoding.encodeHost = host :=
    escape_id host _ (fun c hc => shouldEscape_hostByte c (hh.2 c hc))
  have e2 : url.escape p url.encoding.encodePath = p :=
    escape_id p _ (fun c hc => shouldEscape_pathByte c (hall c hc))
  have hstar : p ≠ bytes "*" := by
    rintro rfl
    rcases hall 42 (by decide) with h | h
    · exact (nameByte_facts 42 h).2.2 rfl
    · omega
  have hep : url.URL.EscapedPath { Scheme := scheme, Host := host, Path := p } = p := by
    simp [url.URL.EscapedPath, hstar, e2]
  have hau : url.URL.authorityString { Scheme := scheme, Host := host, Path := p }
      = bytes "//" ++ host := by
    simp [url.URL.authorityString, hs, hh.1, e1]
  simp only [url.URL.String, url.URL.hierString, hep, hau, ne_eq, hs, not_false_eq_true,
    if_true, not_true_eq_false, if_false, hp, hhead, hh.1, and_self, List.length_append,
    Bool.false_eq_true, or_self, List.append_nil]
  simp [bytes]

/-- C6, as amended: on every release of `net/url`, for every server URL `scheme://host` whose scheme is a
lower-case letter followed by lower-case letters, digits, `+`, `-` and `.`, and
whose host is a non-empty string of ASCII letters, digits, `-`, `.`, `_` and `~`,
every repository `owner/name` and every run id, where owner, name and run id are
non-empty strings of ASCII letters, digits, `-` and `_`, `GetRunURL` returns no
error and exactly the server URL, a slash, the repository, `/actions/runs/` and
the run id. -/
theorem C6_run_url_plain (R : url.HostRules) (env : os.Environ) (scheme host owner name runID : GoString)
    (hserver : os.Getenv env (bytes "GITHUB_SERVER_URL") = scheme ++ bytes "://" ++ host)
    (hrepo : os.Getenv env (bytes "GITHUB_REPOSITORY") = owner ++ bytes "/" ++ name)
    (hid : os.Getenv env (bytes "GITHUB_RUN_ID") = runID)
    (hs : isLowerScheme scheme) (hh : isPlainHost host)
    (ho : isName owner) (hn : isName name) (hi : isName runID) :
    GetRunURL R env
      = (scheme ++ bytes "://" ++ host ++ bytes "/" ++ (owner ++ bytes "/" ++ name)
          ++ bytes "/actions/runs/" ++ runID, none) := by
  obtain ⟨o1, o2, o3, o4⟩ := segments_name owner ho
  obtain ⟨n1, n2, n3, n4⟩ := segments_name name hn
  obtain ⟨i1, i2, i3, i4⟩ := segments_name runID hi
  have hsl : bytes "/" = [47] := by decide
  have hsegr : segments (owner ++ bytes "/" ++ name) = [owner, name] := by
    rw [hsl, List.append_assoc, List.singleton_append, segments_append_slash, o1, n1]; rfl
  have hjoin : path.Join [owner ++ bytes "/" ++ name, bytes "actions", bytes "runs", runID]
      = owner ++ bytes "/" ++ name ++ bytes "/actions/runs/" ++ runID := by
    apply Join_run_verbatim
    · intro seg hseg
      rw [hsegr] at hseg
      simp only [List.mem_cons, List.mem_singleton, List.not_mem_nil, or_false] at hseg
      rcases hseg with h | h <;> subst h
      · exact ⟨o2, o3, o4⟩
      · exact ⟨n2, n3, n4⟩
    · intro seg hseg
      rw [i1] at hseg
      simp only [List.mem_singleton] at hseg
      subst hseg
      exact ⟨i2, i3, i4⟩
  have hsne : scheme ≠ [] := by
    obtain ⟨⟨c, hc, _⟩, _⟩ := hs
    rintro rfl; simp at hc
  have hpath : ∀ c ∈ owner ++ bytes "/" ++ name ++ bytes "/actions/runs/" ++ runID,
      isNameByte c ∨ c = 47 := by
    intro c hc
    simp only [List.mem_append] at hc
    rcases hc with (((h | h) | h) | h) | h
    · exact Or.inl (ho.2 c h)
    · right; rw [hsl] at h; simpa using h
    · exact Or.inl (hn.2 c h)
    · revert c; unfold isNameByte; decide
    · exact Or.inl (hi.2 c h)
  have hhead : (owner ++ bytes "/" ++ name ++ bytes "/actions/runs/" ++ runID).head?
      ≠ some 47 := by
    cases owner with
    | nil => exact absurd rfl o2
    | cons c r =>
      have := nameByte_facts c (ho.2 c (by simp))
      simp; omega
  have hne : owner ++ bytes "/" ++ name ++ bytes "/actions/runs/" ++ runID ≠ [] := by
    cases owner with
    | nil => exact absurd rfl o2
    | cons c r => simp
  simp only [GetRunURL, hserver, hrepo, hid, Parse_plain R scheme host hs hh, hjoin]
  rw [String_plain scheme host _ hsne hh hne hhead hpath]
  simp

/-- C6, as amended, at `https://github.com`, `o/r` and `42`. -/
theorem C6_run_url_plain_witness :
    GetRunURL url.go122 (runEnv (bytes "https://github.com") (bytes "o/r") (bytes "42"))
      = (bytes "https://github.com/o/r/actions/runs/42", none) :=
  C6_run_url_plain url.go122 (runEnv (bytes "https://github.com") (bytes "o/r") (bytes "42"))
    (bytes "https") (bytes "github.com") (bytes "o") (bytes "r") (bytes "42")
    (by decide) (by decide) (by decide)
    ⟨⟨104, by decide, by decide⟩, by unfold isSchemeByte; decide⟩
    ⟨by decide, by unfold isHostByte; decide⟩
    ⟨by decide, by unfold isNameByte; decide⟩
    ⟨by decide, by unfold isNameByte; decide⟩
    ⟨by decide, by unfold isNameByte; decide⟩

/-- C6 fails as stated: the server URL `HTTPS://github.com` is of the form
`scheme://host`, and the URL returned starts with `https`, not with the server
URL as given; with the server URL `https://`, whose host is empty, the URL
returned has two slashes, not three, after the scheme. -/
theorem C6_counterexample :
    GetRunURL url.go122 (runEnv (bytes "HTTPS://github.com") (bytes "o/r") (bytes "42"))
        = (bytes "https://github.com/o/r/actions/runs/42", none)
    ∧ GetRunURL url.go122 (runEnv (bytes "HTTPS://github.com") (bytes "o/r") (bytes "42"))
        ≠ (bytes "HTTPS://github.com" ++ bytes "/" ++ bytes "o/r" ++ bytes "/actions/runs/"
            ++ bytes "42", none)
    ∧ GetRunURL url.go122 (runEnv (bytes "https://") (bytes "o/r") (bytes "42"))
        = (bytes "https://o/r/actions/runs/42", none) := by
  decide


theorem DecodeRuneInString_size (c : Nat) (t : GoString) :
    0 < (utf8.DecodeRuneInString (c :: t)).2 := by
  rw [utf8.DecodeRuneInString]
  by_cases h1 : c < 128
  · rw [if_pos h1]; exact Nat.one_pos
  rw [if_neg h1]
  by_cases h2 : c < 194 ∨ 245 ≤ c
  · rw [if_pos h2]; exact Nat.one_pos
  rw [if_neg h2]
  dsimp only
  by_cases h3 : t.length + 1 < (if c < 224 then 2 else if c < 240 then 3 else 4)
  · rw [if_pos h3]; exact Nat.one_pos
  rw [if_neg h3]
  cases t with
  | nil => exact Nat.one_pos
  | cons s1 t1 =>
    dsimp only
    by_cases h4 : s1 < (if c = 224 then 160 else if c = 240 then 144 else 128)
        ∨ (if c = 237 then 159 else if c = 244 then 143 else 191) < s1
    · rw [if_pos h4]; exact Nat.one_pos
    rw [if_neg h4]
    by_cases h5 : (if c < 224 then 2 else if c < 240 then 3 else 4) ≤ 2
    · rw [if_pos h5]; exact Nat.succ_pos _
    rw [if_neg h5]
    cases t1 with
    | nil => exact Nat.one_pos
    | cons s2 t2 =>
      dsimp only
      by_cases h6 : (!utf8.cont s2) = true
      · rw [if_pos h6]; exact Nat.one_pos
      rw [if_neg h6]
      by_cases h7 : (if c < 224 then 2 else if c < 240 then 3 else 4) ≤ 3
      · rw [if_pos h7]; exact Nat.succ_pos _
      rw [if_neg h7]
      cases t2 with
      | nil => exact Nat.one_pos
      | cons s3 t3 =>
        dsimp only
        by_cases h8 : (!utf8.cont s3) = true
        · rw [if_pos h8]; exact Nat.one_pos
        · rw [if_neg h8]; exact Nat.succ_pos _


/-! ## The fuel is enough -/

/-- The loop of `path.Clean` ends within one step per byte of input. -/
theorem cleanLoop_total (rooted : Bool) :
    ∀ (fuel : Nat) (q out : GoString) (dotdot : Nat), q.length < fuel →
      ∃ r, path.cleanLoop rooted fuel q out dotdot = some r := by
  intro fuel
  induction fuel with
  | zero => intro q out dotdot h; omega
  | succ fuel ih =>
    intro q out dotdot hlen
    cases q with
    | nil => exact ⟨out, by simp [path.cleanLoop]⟩
    | cons c rest =>
      have hrest : rest.length < fuel := by simp at hlen; omega
      have htail : rest.tail.length < fuel := by
        have := List.length_tail rest; omega
      rw [path.cleanLoop]
      by_cases h1 : c = 47
      · rw [if_pos h1]; exact ih _ _ _ hrest
      · rw [if_neg h1]
        by_cases h2 : c = 46 ∧ (rest = [] ∨ rest.head? = some 47)
        · rw [if_pos h2]; exact ih _ _ _ hrest
        · rw [if_neg h2]
          by_cases h3 : c = 46 ∧ rest.head? = some 46
              ∧ (rest.tail = [] ∨ rest.tail.head? = some 47)
          · rw [if_pos h3]
            by_cases h4 : out.length > dotdot
            · rw [if_pos h4]; exact ih _ _ _ htail
            · rw [if_neg h4]
              by_cases h5 : rooted = false
              · rw [if_pos h5]; exact ih _ _ _ htail
              · rw [if_neg h5]; exact ih _ _ _ htail
          · rw [if_neg h3]
            apply ih
            have := dropWhile_length_le (c :: rest)
            have e : (c :: rest).dropWhile (· ≠ 47) = rest.dropWhile (· ≠ 47) :=
              List.dropWhile_cons_of_pos (by simp [h1])
            have := dropWhile_length_le rest
            rw [e]; omega

/-- `path.Clean` never runs out of fuel. -/
theorem cleanOut_total (p : GoString) : ∃ r, path.cleanOut p = some r := by
  unfold path.cleanOut
  by_cases h : p.head? = some 47
  · rw [if_pos h]; exact cleanLoop_total true _ _ _ _ (by simp; omega)
  · rw [if_neg h]; exact cleanLoop_total false _ _ _ _ (by omega)

theorem simpleFormat_length (av : Bool) (s : GoString) :
    ∀ f : fmt.fmtFlags, (fmt.simpleFormat av s f).2.2.length ≤ s.length := by
  induction s with
  | nil => intro f; simp [fmt.simpleFormat]
  | cons c r ih =>
    intro f
    rw [fmt.simpleFormat]
    by_cases h1 : c = 35
    · rw [if_pos h1]; have := ih { f with sharp := true }; simp only [List.length_cons]; omega
    rw [if_neg h1]
    by_cases h2 : c = 48
    · rw [if_pos h2]; have := ih { f with zero := !f.minus }; simp only [List.length_cons]; omega
    rw [if_neg h2]
    by_cases h3 : c = 43
    · rw [if_pos h3]; have := ih { f with plus := true }; simp only [List.length_cons]; omega
    rw [if_neg h3]
    by_cases h4 : c = 45
    · rw [if_pos h4]
      have := ih { f with minus := true, zero := false }
      simp only [List.length_cons]; omega
    rw [if_neg h4]
    by_cases h5 : c = 32
    · rw [if_pos h5]; have := ih { f with space := true }; simp only [List.length_cons]; omega
    rw [if_neg h5]
    by_cases h6 : 97 ≤ c ∧ c ≤ 122 ∧ av = true
    · rw [if_pos h6]; simp
    · rw [if_neg h6]

theorem parsenumLoop_length (s : GoString) :
    ∀ (num : Int) (isnum : Bool), (fmt.parsenumLoop s num isnum).2.2.length ≤ s.length := by
  induction s with
  | nil => intro num isnum; simp [fmt.parsenumLoop]
  | cons c r ih =>
    intro num isnum
    rw [fmt.parsenumLoop]
    by_cases h1 : 48 ≤ c ∧ c ≤ 57
    · rw [if_pos h1]
      by_cases h2 : fmt.tooLarge num = true
      · rw [if_pos h2]; simp
      · rw [if_neg h2]
        have := ih (num * 10 + ((c - 48 : Nat) : Int)) true
        simp only [List.length_cons]; omega
    · rw [if_neg h1]

theorem argNumber_length (p : fmt.pp) (s : GoString) (n : Nat) :
    (fmt.argNumber p s n).2.1.length ≤ s.length := by
  unfold fmt.argNumber
  by_cases h1 : s.head? = some 91
  · rw [if_pos h1]
    by_cases h2 : (fmt.parseArgNumber s).2.2 = true ∧ 0 ≤ (fmt.parseArgNumber s).1
        ∧ (fmt.parseArgNumber s).1 < (n : Int)
    · rw [if_pos h2]; simp
    · rw [if_neg h2]; simp
  · rw [if_neg h1]

theorem width_length {α : Type} (P : fmt.Printer α) (a : List (fmt.Value α)) (p : fmt.pp)
    (s : GoString) : (fmt.width P a p s).2.length ≤ s.length := by
  unfold fmt.width
  by_cases h1 : s.head? = some 42
  · rw [if_pos h1]; simp
  · rw [if_neg h1]; exact parsenumLoop_length s 0 false

theorem precision_length {α : Type} (P : fmt.Printer α) (a : List (fmt.Value α)) (p : fmt.pp)
    (s : GoString) : (fmt.precision P a p s).2.length ≤ s.length := by
  unfold fmt.precision
  by_cases h1 : s.head? = some 46
  · rw [if_pos h1]
    have h2 := argNumber_length (if p.afterIndex then { p with goodArgNum := false } else p)
      (s.drop 1) a.length
    have h3 : (s.drop 1).length ≤ s.length := by simp
    generalize fmt.argNumber (if p.afterIndex then { p with goodArgNum := false } else p)
      (s.drop 1) a.length = res at h2 ⊢
    obtain ⟨p', rest, found⟩ := res
    simp only at h2 ⊢
    by_cases h4 : rest.head? = some 42
    · rw [if_pos h4]; simp; omega
    · rw [if_neg h4]
      have := parsenumLoop_length rest 0 false
      show (fmt.parsenum rest).2.2.length ≤ _
      simp only [fmt.parsenum]; omega
  · rw [if_neg h1]

theorem argNumberAgain_length (p : fmt.pp) (s : GoString) (n : Nat) :
    (fmt.argNumberAgain p s n).2.length ≤ s.length := by
  unfold fmt.argNumberAgain
  by_cases h : p.afterIndex = true
  · rw [if_pos h]
  · rw [if_neg h]
    have := argNumber_length p s n
    generalize fmt.argNumber p s n = r4 at this ⊢
    obtain ⟨p4, s4, f4⟩ := r4
    simpa using this

theorem readVerb_length (c : Nat) (t : GoString) :
    (fmt.readVerb (c :: t)).2.length < (c :: t).length := by
  unfold fmt.readVerb
  by_cases h : (c :: t).headD 0 ≥ 128
  · rw [if_pos h]
    have := DecodeRuneInString_size c t
    simp only [List.length_drop, List.length_cons]; omega
  · rw [if_neg h]; simp

/-- A directive with a verb leaves less of the format than it was given. -/
theorem directive_length {α : Type} (P : fmt.Printer α) (a : List (fmt.Value α)) (p : fmt.pp)
    (s r : GoString) (q : fmt.pp) (h : fmt.directive P a p s = (q, some r)) :
    r.length < s.length ∨ (r.length ≤ s.length ∧ s = []) := by
  unfold fmt.directive at h
  have h1 := argNumber_length p s a.length
  generalize fmt.argNumber p s a.length = r1 at h h1
  obtain ⟨p1, s1, f1⟩ := r1
  simp only at h h1
  have h2 := width_length P a { p1 with afterIndex := f1 } s1
  generalize fmt.width P a { p1 with afterIndex := f1 } s1 = r2 at h h2
  obtain ⟨p2, s2⟩ := r2
  simp only at h h2
  have h3 := precision_length P a p2 s2
  generalize fmt.precision P a p2 s2 = r3 at h h3
  obtain ⟨p3, s3⟩ := r3
  simp only at h h3
  have h4 := argNumberAgain_length p3 s3 a.length
  generalize fmt.argNumberAgain p3 s3 a.length = r4 at h h4
  obtain ⟨p4, s4⟩ := r4
  simp only at h h4
  by_cases h5 : s4 = []
  · rw [if_pos h5] at h; simp at h
  · rw [if_neg h5] at h
    simp only [Prod.mk.injEq, Option.some.injEq] at h
    left
    rw [← h.2]
    cases s4 with
    | nil => exact absurd rfl h5
    | cons c t =>
      have := readVerb_length c t
      omega

theorem dropWhile_length_le' (q : GoString) : (q.dropWhile (· ≠ 37)).length ≤ q.length :=
  List.IsSuffix.length_le (List.dropWhile_suffix _)

/-- The loop of `doPrintf` ends within one step per byte of the format. -/
theorem formatLoop_total {α : Type} (P : fmt.Printer α) (a : List (fmt.Value α)) :
    ∀ (fuel : Nat) (format : GoString) (p : fmt.pp), format.length < fuel →
      ∃ q, fmt.formatLoop P a fuel format p = some q := by
  intro fuel
  induction fuel with
  | zero => intro format p h; omega
  | succ fuel ih =>
    intro format p hlen
    rw [fmt.formatLoop]
    have hd := dropWhile_length_le' format
    cases hdw : format.dropWhile (· ≠ 37) with
    | nil => exact ⟨_, rfl⟩
    | cons c rest =>
      rw [hdw] at hd
      have hrest : rest.length < fuel := by simp at hd; omega
      simp only []
      have hsf := simpleFormat_length (decide (p.argNum < a.length)) rest (fmt.clearflags p.fmt)
      generalize fmt.simpleFormat (decide (p.argNum < a.length)) rest (fmt.clearflags p.fmt)
        = sf at hsf ⊢
      obtain ⟨f, v, rest'⟩ := sf
      simp only at hsf
      cases v with
      | some v => exact ih _ _ (by omega)
      | none =>
        simp only []
        cases hdir : fmt.directive P a
          { p with goodArgNum := true, buf := p.buf ++ format.takeWhile (· ≠ 37), fmt := f }
          rest' with
        | mk q o =>
          cases o with
          | none => exact ⟨q, rfl⟩
          | some r =>
            have := directive_length P a _ rest' r q hdir
            exact ih _ _ (by omega)

/-- `doPrintf` never runs out of fuel. -/
theorem doPrintf_total {α : Type} (P : fmt.Printer α) (format : GoString)
    (a : List (fmt.Value α)) : ∃ p, fmt.doPrintf P format a = some p := by
  obtain ⟨q, hq⟩ := formatLoop_total P a (format.length + 1) format {} (by omega)
  unfold fmt.doPrintf
  rw [hq]
  simp only []
  by_cases h : q.reordered = false ∧ q.argNum < a.length
  · rw [if_pos h]; exact ⟨_, rfl⟩
  · rw [if_neg h]; exact ⟨_, rfl⟩

end GoGithubActions
